import Mathlib

/-!
The fibernet `Timer`: a hierarchical timing wheel.

Shallow embedding of `src/include/timer.h` and a verification development over it.

Conventions of the embedding.

* A C `int` or `uint32_t` that takes part in arithmetic or bit operations (`m_time`,
  `m_current`, `expire`, the `time` argument of `timeout`, the loop variables `mask`,
  `msb`, `time`) is represented by its 32-bit two's complement pattern, a natural number
  below `2^32`.  Arithmetic wraps modulo `2^32`; `>>` on an `int` is the arithmetic
  shift `sar32`; a conversion to signed (`int diff = ...`) is `toInt32`.
* `session` and the result of `timeout` are never computed with; they are kept as `Int`.
* The intrusive lists `near[256]` and `t[4][63]` are maps from indices to the list of
  records in the bucket, head first.  Only indices inside the arrays are written; an
  access outside an array (index `-1` of a level) has no defined behaviour in C++ and is
  modelled as failure (`none`).
* The lock `m_lock` is not modelled: every operation is atomic in the embedding.
* The clock is an argument: `updatetime` takes the value that its call of `_gettime()`
  returns, and `_gettime` takes the value of the monotonic clock.
* The `while` loop of `execute` takes `fuel`, a bound on the number of evaluations of its
  condition; four suffice whenever the loop exits, and the result does not depend on the
  fuel beyond that (`execute_mono`).  `none` for every fuel means that the loop never
  exits.
* The dispatcher and the two message-header constants are not part of `timer.h`; they
  are the fields of `Context`.  Every call of `push` is recorded in the returned trace.
  (`timeout` spells the class `Contex`, `execute` spells it `Context`; both are the one
  dispatcher.)
* In `execute` the source names the fired record `t` at the `push` and at `delete`
  (`t->event.handle`), while the loop variable is `node` and `t` is the array of level
  buckets, which has no member `event`.  The embedding reads the loop variable there.
-/

namespace fibernet

/-! ## Constants -/

@[reducible] def TIME_NEAR_SHIFT : Nat := 8
@[reducible] def TIME_NEAR : Nat := 1 <<< TIME_NEAR_SHIFT
@[reducible] def TIME_LEVEL_SHIFT : Nat := 6
@[reducible] def TIME_LEVEL : Nat := 1 <<< TIME_LEVEL_SHIFT
@[reducible] def TIME_NEAR_MASK : Nat := TIME_NEAR - 1
@[reducible] def TIME_LEVEL_MASK : Nat := TIME_LEVEL - 1

/-! ## 32-bit integer helpers -/

/-- Number of 32-bit patterns. -/
@[reducible] def U32 : Nat := 2 ^ 32

/-- Wrapping addition on 32-bit patterns. -/
def add32 (x y : Nat) : Nat := (x + y) % U32

/-- Wrapping subtraction on 32-bit patterns. -/
def sub32 (x y : Nat) : Nat := (x + (U32 - y % U32)) % U32

/-- Left shift on 32-bit patterns, the bits shifted out are dropped. -/
def shl32 (x k : Nat) : Nat := (x <<< k) % U32

/-- Arithmetic right shift of an `int` given by its pattern: the sign bit is replicated. -/
def sar32 (x k : Nat) : Nat :=
  if x < 2 ^ 31 then x >>> k else (x >>> k) + (U32 - 2 ^ (32 - k))

/-- Value of a 32-bit pattern read as a signed `int`. -/
def toInt32 (x : Nat) : Int := if x < 2 ^ 31 then (x : Int) else (x : Int) - (U32 : Int)

/-- Overwrite one entry of an array given as a map from indices. -/
def upd {α : Type} (f : Nat → α) (i : Nat) (v : α) : Nat → α :=
  fun j => if j = i then v else f j

/-! ## Data model -/

/-- Payload of a timer: `struct timer_event`. -/
structure timer_event where
  handle : Nat
  session : Int
  deriving DecidableEq, Repr

/-- One armed timeout: `struct timer_node` (the list linkage is the position in a bucket). -/
structure timer_node where
  expire : Nat
  event : timer_event
  deriving DecidableEq, Repr

/-- The message handed to the dispatcher: `struct skynet_message`; `data = none` is `NULL`. -/
structure skynet_message where
  source : Nat
  session : Int
  data : Option Nat
  sz : Nat
  deriving DecidableEq, Repr

/-- The dispatcher `Context::push` (its result is nonzero on failure) and the two
message-header constants, none of which `timer.h` defines. -/
structure Context where
  PTYPE_RESPONSE : Nat
  HANDLE_REMOTE_SHIFT : Nat
  push : Nat → skynet_message → Int

/-- One recorded call `Context::push(handle, &message)`. -/
abbrev PushCall : Type := Nat × skynet_message

/-- State of `class Timer` (without the lock). -/
structure Timer where
  near : Nat → List timer_node
  t : Nat → Nat → List timer_node
  m_time : Nat
  m_current : Nat
  m_starttime : Nat

namespace Timer

/-- `list_add_tail(&node->node, &near[idx])`. -/
def near_add_tail (w : Timer) (idx : Nat) (node : timer_node) : Timer :=
  { w with near := upd w.near idx (w.near idx ++ [node]) }

/-- `list_add_tail(&node->node, &t[i][idx])`. -/
def t_add_tail (w : Timer) (i idx : Nat) (node : timer_node) : Timer :=
  { w with t := upd w.t i (upd (w.t i) idx (w.t i idx ++ [node])) }

/-- Replace the content of `t[i][idx]` (used for `list_del` of the head of the bucket). -/
def t_set (w : Timer) (i idx : Nat) (l : List timer_node) : Timer :=
  { w with t := upd w.t i (upd (w.t i) idx l) }

/-- The constructor `Timer()`: all buckets empty, `m_time = 0`, `m_current` the first clock
reading `ct`; `sec` is the wall clock second and `ct2` the second clock reading.  (The
source initialises the level buckets by `INIT_LIST_HEAD(&t[i])` inside the loop over `j`;
the embedding takes every bucket `t[i][j]` as initialised, that is, empty.) -/
def construct (ct sec ct2 : Nat) : Timer :=
  { near := fun _ => []
    t := fun _ _ => []
    m_time := 0
    m_current := ct
    m_starttime := sub32 sec (ct2 / 100) }

/-- `gettime_fixsec()`. -/
def gettime_fixsec (w : Timer) : Nat := w.m_starttime

/-- `gettime()`. -/
def gettime (w : Timer) : Nat := w.m_current

/-- The clock reading `_gettime()` (the branch for systems other than Apple), from the
monotonic clock value `tv_sec`, `tv_nsec`. -/
def _gettime (tv_sec tv_nsec : Nat) : Nat :=
  add32 (((tv_sec &&& 0xffffff) % U32 * 100) % U32) ((tv_nsec / 10000000) % U32)

/-- The `for (i=0;i<3;i++)` loop of `add_node`: `n` iterations remain, the result is the
value of `i` at the exit. -/
def add_node_loop (time current_time : Nat) : Nat → Nat → Nat → Nat
  | 0, i, _ => i
  | n + 1, i, mask =>
    if (time ||| sub32 mask 1) = (current_time ||| sub32 mask 1) then i
    else add_node_loop time current_time n (i + 1) (shl32 mask TIME_LEVEL_SHIFT)

/-- Place a record: `add_node`.  Fails when the level index is `-1`. -/
def add_node (w : Timer) (node : timer_node) : Option Timer :=
  let time := node.expire
  let current_time := w.m_time
  if (time ||| TIME_NEAR_MASK) = (current_time ||| TIME_NEAR_MASK) then
    some (w.near_add_tail (time &&& TIME_NEAR_MASK) node)
  else
    let i := add_node_loop time current_time 3 0 (shl32 TIME_NEAR TIME_LEVEL_SHIFT)
    let d := sar32 time (TIME_NEAR_SHIFT + i * TIME_LEVEL_SHIFT) &&& TIME_LEVEL_MASK
    if d = 0 then none else some (w.t_add_tail i (d - 1) node)

/-- The message of a fired timer. -/
def timeout_message (ctx : Context) (session : Int) : skynet_message :=
  { source := 0
    session := session
    data := none
    sz := ctx.PTYPE_RESPONSE <<< ctx.HANDLE_REMOTE_SHIFT }

/-- The drain loop of `execute` over the bucket `near[idx]`, head to tail: every record is
pushed (the result of `push` is dropped), unlinked and deleted. -/
def execute_near (ctx : Context) : List timer_node → List PushCall
  | [] => []
  | node :: rest =>
    let message := timeout_message ctx node.event.session
    let _ := ctx.push node.event.handle message
    (node.event.handle, message) :: execute_near ctx rest

/-- The cascade loop body of `execute` over the content of `t[i][idx]`, head to tail: each
record is unlinked (`list_del`) and placed again by `add_node`.  The walk follows the
content the bucket had at loop entry: `add_node` never appends to the bucket that is being
cascaded (`place_never_src`). -/
def execute_cascade (i idx : Nat) : List timer_node → Timer → Option Timer
  | [], w => some w
  | node :: rest, w =>
    match add_node (w.t_set i idx rest) node with
    | none => none
    | some w1 => execute_cascade i idx rest w1

/-- The `while ((m_time & (msb-1))==0)` loop of `execute`; `fuel` bounds the number of
evaluations of the loop condition, `none` is returned when it is used up. -/
def execute_loop (w : Timer) : Nat → Nat → Nat → Nat → Option Timer
  | 0, _, _, _ => none
  | fuel + 1, msb, time, i =>
    if (w.m_time &&& sub32 msb 1) = 0 then
      let idx := time &&& TIME_LEVEL_MASK
      if idx ≠ 0 then
        if i < 4 then execute_cascade i (idx - 1) (w.t i (idx - 1)) w else none
      else execute_loop w fuel (shl32 msb TIME_LEVEL_SHIFT) (sar32 time TIME_LEVEL_SHIFT) (i + 1)
    else some w

/-- One tick: `execute`.  Returns the new state and the calls of `push`, in order. -/
def execute (ctx : Context) (fuel : Nat) (w : Timer) : Option (Timer × List PushCall) :=
  let idx := w.m_time &&& TIME_NEAR_MASK
  let out := execute_near ctx (w.near idx)
  let w1 : Timer := { w with near := upd w.near idx [], m_time := add32 w.m_time 1 }
  match execute_loop w1 fuel TIME_NEAR (sar32 w1.m_time TIME_NEAR_SHIFT) 0 with
  | none => none
  | some w2 => some (w2, out)

/-- The `for (i=0;i<diff;i++) execute();` loop of `updatetime`, `n` iterations. -/
def updatetime_loop (ctx : Context) (fuel : Nat) : Nat → Timer → Option (Timer × List PushCall)
  | 0, w => some (w, [])
  | n + 1, w =>
    match execute ctx fuel w with
    | none => none
    | some (w1, out) =>
      match updatetime_loop ctx fuel n w1 with
      | none => none
      | some (w2, out2) => some (w2, out ++ out2)

/-- Drive the wheel: `updatetime`, with `ct` the value `_gettime()` returns. -/
def updatetime (ctx : Context) (fuel : Nat) (w : Timer) (ct : Nat) :
    Option (Timer × List PushCall) :=
  if ct > w.m_current then
    let diff := toInt32 (sub32 ct w.m_current)
    updatetime_loop ctx fuel diff.toNat { w with m_current := ct }
  else some (w, [])

/-- Arm a timer: `timeout`.  Returns the new state, the result and the calls of `push`. -/
def timeout (ctx : Context) (w : Timer) (handle time : Nat) (session : Int) :
    Option (Timer × Int × List PushCall) :=
  if time = 0 then
    let message := timeout_message ctx session
    if ctx.push handle message ≠ 0 then some (w, -1, [(handle, message)])
    else some (w, session, [(handle, message)])
  else
    let node : timer_node :=
      { expire := add32 time w.m_time, event := { handle := handle, session := session } }
    match add_node w node with
    | none => none
    | some w1 => some (w1, session, [])

end Timer

/-! ## Specification devices -/

open Timer

/-- A bucket of the wheel: `near[idx]` or `t[i][idx]`. -/
inductive Slot where
  | near (idx : Nat)
  | level (i idx : Nat)
  deriving DecidableEq, Repr

/-- The bucket `t[i][d - 1]` for the 6-bit digit `d`; there is none for `d = 0`. -/
def level_slot (i d : Nat) : Option Slot := if d = 0 then none else some (Slot.level i (d - 1))

/-- The bucket lies inside the arrays `near[256]` and `t[4][63]`. -/
def Slot.valid : Slot → Prop
  | Slot.near idx => idx < 256
  | Slot.level i idx => i < 4 ∧ idx < 63

instance (s : Slot) : Decidable s.valid := by
  cases s <;> unfold Slot.valid <;> infer_instance

/-- The placement rule in arithmetic form: the bucket for expiry `E` when the tick counter
is `C`.  `add_node_eq` shows that `add_node` computes it. -/
def place (C E : Nat) : Option Slot :=
  if E / 256 = C / 256 then some (Slot.near (E % 256))
  else if E / 16384 = C / 16384 then level_slot 0 (E / 256 % 64)
  else if E / 1048576 = C / 1048576 then level_slot 1 (E / 16384 % 64)
  else if E / 67108864 = C / 67108864 then level_slot 2 (E / 1048576 % 64)
  else level_slot 3 (E / 67108864 % 64)

/-- The level bucket that `execute` cascades when the incremented counter is `m`; `none`
when the low 8 bits of `m` are nonzero, and also for `m = 0`. -/
def cascade_slot (m : Nat) : Option Slot :=
  if m % 256 ≠ 0 then none
  else if m / 256 % 64 ≠ 0 then some (Slot.level 0 (m / 256 % 64 - 1))
  else if m / 16384 % 64 ≠ 0 then some (Slot.level 1 (m / 16384 % 64 - 1))
  else if m / 1048576 % 64 ≠ 0 then some (Slot.level 2 (m / 1048576 % 64 - 1))
  else if m / 67108864 % 64 ≠ 0 then some (Slot.level 3 (m / 67108864 % 64 - 1))
  else none

/-- The placement rule on the quotients `a k = C / 2^(8+6k)`, `b k = E / 2^(8+6k)`. -/
def placeq (a0 a1 a2 a3 b0 b1 b2 b3 n : Nat) : Option Slot :=
  if b0 = a0 then some (Slot.near n)
  else if b1 = a1 then level_slot 0 (b0 % 64)
  else if b2 = a2 then level_slot 1 (b1 % 64)
  else if b3 = a3 then level_slot 2 (b2 % 64)
  else level_slot 3 (b3 % 64)

/-- The function `cascade_slot` on the quotients `a k = m / 2^(8+6k)`. -/
def cascadeq (a0 a1 a2 a3 : Nat) : Option Slot :=
  if a0 % 64 ≠ 0 then some (Slot.level 0 (a0 % 64 - 1))
  else if a1 % 64 ≠ 0 then some (Slot.level 1 (a1 % 64 - 1))
  else if a2 % 64 ≠ 0 then some (Slot.level 2 (a2 % 64 - 1))
  else if a3 % 64 ≠ 0 then some (Slot.level 3 (a3 % 64 - 1))
  else none


/-- Content of a bucket. -/
def bucket (w : Timer) : Slot → List timer_node
  | Slot.near idx => w.near idx
  | Slot.level i idx => w.t i idx

/-- The call `list_add_tail` on a bucket. -/
def add_tail (w : Timer) (s : Slot) (node : timer_node) : Timer :=
  match s with
  | Slot.near idx => w.near_add_tail idx node
  | Slot.level i idx => w.t_add_tail i idx node

/-- The records that `execute` drains: the content of `near[m_time & TIME_NEAR_MASK]`. -/
def fired (w : Timer) : List timer_node := w.near (w.m_time &&& TIME_NEAR_MASK)

/-- Wheel invariant: the counter is a 32-bit value and every pending record is not yet past
due and lies in the bucket the placement rule gives for the current counter. -/
def Inv (w : Timer) : Prop :=
  w.m_time < 2 ^ 32 ∧
    ∀ s, ∀ n ∈ bucket w s,
      w.m_time ≤ n.expire ∧ n.expire < 2 ^ 32 ∧ place w.m_time n.expire = some s

/-- The records with expiry `E` in the bucket the placement rule gives for `E`, in bucket
order.  Under `Inv` these are all pending records with expiry `E`. -/
def queue (w : Timer) (E : Nat) : List timer_node :=
  match place w.m_time E with
  | none => []
  | some s => (bucket w s).filter (fun n => n.expire = E)

/-- All pending records: the buckets of `near`, then those of `t`, in index order. -/
def all_nodes (w : Timer) : List timer_node :=
  (List.range 256).flatMap w.near ++
    (List.range 4).flatMap (fun i => (List.range 63).flatMap (w.t i))

/-- The pending records with expiry `E`, in storage order. -/
def pending (w : Timer) (E : Nat) : List timer_node :=
  (all_nodes w).filter (fun n => n.expire = E)

/-- One step of the wheel: a call of `timeout` whose expiry does not pass `2^32` (or with
delay `0`), or a call of `execute` that returns. -/
inductive Step (ctx : Context) : Timer → Timer → Prop
  | timeout {w w1 : Timer} (handle time : Nat) (session r : Int) (out : List PushCall) :
      (time = 0 ∨ w.m_time + time < 2 ^ 32) →
      timeout ctx w handle time session = some (w1, r, out) → Step ctx w w1
  | execute {w w1 : Timer} (fuel : Nat) (out : List PushCall) :
      execute ctx fuel w = some (w1, out) → Step ctx w w1

/-- Overwrite `m_current`. -/
def set_current (w : Timer) (c : Nat) : Timer := { w with m_current := c }

/-- A sequence of `updatetime` calls with the given clock readings; the pushes are listed
per call. -/
def updatetime_seq (ctx : Context) (fuel : Nat) :
    List Nat → Timer → Option (Timer × List (List PushCall))
  | [], w => some (w, [])
  | ct :: rest, w =>
    match updatetime ctx fuel w ct with
    | none => none
    | some (w1, out) =>
      match updatetime_seq ctx fuel rest w1 with
      | none => none
      | some (w2, outs) => some (w2, out :: outs)

/-- The clock readings `c + 1, c + 2, ..., c + N`. -/
def readings (c N : Nat) : List Nat := (List.range N).map (fun j => c + 1 + j)

/-- An empty wheel whose tick counter is `m`. -/
def wheel_at (m : Nat) : Timer := { construct 0 0 0 with m_time := m }

/-- One call of the public interface: `timeout` with any arguments, or `updatetime` at a
clock value `tv_sec`, `tv_nsec`. -/
inductive ApiStep (ctx : Context) : Timer → Timer → Prop
  | timeout {w w1 : Timer} (handle time : Nat) (session r : Int) (out : List PushCall) :
      timeout ctx w handle time session = some (w1, r, out) → ApiStep ctx w w1
  | updatetime {w w1 : Timer} (fuel tv_sec tv_nsec : Nat) (out : List PushCall) :
      tv_nsec < 10 ^ 9 →
      updatetime ctx fuel w (_gettime tv_sec tv_nsec) = some (w1, out) → ApiStep ctx w w1

/-- A dispatcher that always succeeds, with the header constants of upstream skynet. -/
def ctx0 : Context := ⟨1, 24, fun _ _ => 0⟩

/-- Where the placement rule of the specification sends a record: a bucket of `near`, or
the bucket `idx` of level `i`, with `idx` the digit minus one as a signed value. -/
inductive Placement where
  | near (idx : Nat)
  | level (i : Nat) (idx : Int)
  deriving DecidableEq, Repr

/-- The placement rule as the specification words it, on expiry `E` and current tick `C`:
`near[E & 0xFF]` when `E` and `C` agree on their upper 24 bits, otherwise level `i`, bucket
`((E >> (8 + 6*i)) & 0x3F) - 1`, with `i` the smallest of 0, 1, 2 for which `E` and `C` agree
on all bits at and above bit `14 + 6*i`, and `i = 3` when there is none. -/
def placement_rule (E C : Nat) : Placement :=
  if E >>> 8 = C >>> 8 then Placement.near (E &&& 0xFF)
  else
    let i :=
      if E >>> 14 = C >>> 14 then 0
      else if E >>> 20 = C >>> 20 then 1
      else if E >>> 26 = C >>> 26 then 2
      else 3
    Placement.level i ((((E >>> (8 + 6 * i)) &&& 0x3F : Nat) : Int) - 1)

/-- A dispatcher whose `push` always reports failure. -/
def ctx_fail : Context := ⟨1, 24, fun _ _ => -1⟩

/-! ## Bit operations as arithmetic -/

theorem or_mask_eq_iff (k x y : Nat) :
    (x ||| (2 ^ k - 1)) = (y ||| (2 ^ k - 1)) ↔ x / 2 ^ k = y / 2 ^ k := by
  constructor
  · intro h
    apply Nat.eq_of_testBit_eq
    intro j
    have h1 := congrArg (fun z => Nat.testBit z (k + j)) h
    simp only [Nat.testBit_or, Nat.testBit_two_pow_sub_one] at h1
    have h2 : decide (k + j < k) = false := by simp
    rw [h2] at h1
    simp only [Bool.or_false] at h1
    rw [← Nat.shiftRight_eq_div_pow, ← Nat.shiftRight_eq_div_pow, Nat.testBit_shiftRight,
      Nat.testBit_shiftRight]
    exact h1
  · intro h
    apply Nat.eq_of_testBit_eq
    intro j
    simp only [Nat.testBit_or, Nat.testBit_two_pow_sub_one]
    by_cases hj : j < k
    · simp [hj]
    · have h1 := congrArg (fun z => Nat.testBit z (j - k)) h
      simp only [← Nat.shiftRight_eq_div_pow, Nat.testBit_shiftRight] at h1
      have h3 : k + (j - k) = j := by omega
      rw [h3] at h1
      simp [hj, h1]

theorem and_255 (x : Nat) : x &&& 255 = x % 256 := Nat.and_pow_two_sub_one_eq_mod x 8
theorem and_63 (x : Nat) : x &&& 63 = x % 64 := Nat.and_pow_two_sub_one_eq_mod x 6

theorem sar32_digit (x s : Nat) (hs : s ≤ 26) :
    sar32 x s &&& 63 = (x / 2 ^ s) % 64 := by
  rw [and_63]
  unfold sar32
  split
  · rw [Nat.shiftRight_eq_div_pow]
  · rw [Nat.shiftRight_eq_div_pow]
    have h1 : (U32 - 2 ^ (32 - s)) % 64 = 0 := by
      interval_cases s <;> decide
    omega

theorem mask_near (x y : Nat) : (x ||| 255) = (y ||| 255) ↔ x / 256 = y / 256 :=
  or_mask_eq_iff 8 x y
theorem mask_l0 (x y : Nat) : (x ||| 16383) = (y ||| 16383) ↔ x / 16384 = y / 16384 :=
  or_mask_eq_iff 14 x y
theorem mask_l1 (x y : Nat) : (x ||| 1048575) = (y ||| 1048575) ↔ x / 1048576 = y / 1048576 :=
  or_mask_eq_iff 20 x y
theorem mask_l2 (x y : Nat) :
    (x ||| 67108863) = (y ||| 67108863) ↔ x / 67108864 = y / 67108864 :=
  or_mask_eq_iff 26 x y

theorem add_node_loop_eq (E C : Nat) :
    add_node_loop E C 3 0 (shl32 TIME_NEAR TIME_LEVEL_SHIFT) =
      if E / 16384 = C / 16384 then 0
      else if E / 1048576 = C / 1048576 then 1
      else if E / 67108864 = C / 67108864 then 2 else 3 := by
  have e0 : shl32 TIME_NEAR TIME_LEVEL_SHIFT = 16384 := by decide
  have e1 : shl32 16384 TIME_LEVEL_SHIFT = 1048576 := by decide
  have e2 : shl32 1048576 TIME_LEVEL_SHIFT = 67108864 := by decide
  have s0 : sub32 16384 1 = 16383 := by decide
  have s1 : sub32 1048576 1 = 1048575 := by decide
  have s2 : sub32 67108864 1 = 67108863 := by decide
  simp only [add_node_loop, e0, e1, e2, s0, s1, s2, mask_l0, mask_l1, mask_l2]

theorem add_node_eq (w : Timer) (node : timer_node) :
    add_node w node = (place w.m_time node.expire).map (fun s => add_tail w s node) := by
  unfold add_node place
  simp only [add_node_loop_eq]
  have hm : TIME_NEAR_MASK = 255 := by decide
  have hl : TIME_LEVEL_MASK = 63 := by decide
  simp only [hm, hl, mask_near, and_255]
  by_cases h0 : node.expire / 256 = w.m_time / 256
  · simp [h0, add_tail]
  · simp only [h0, if_false]
    by_cases h1 : node.expire / 16384 = w.m_time / 16384
    · simp only [h1, if_true]
      rw [show TIME_NEAR_SHIFT + 0 * TIME_LEVEL_SHIFT = 8 from rfl, sar32_digit _ _ (by omega)]
      unfold level_slot
      split_ifs <;> simp_all [add_tail]
    · simp only [h1, if_false]
      by_cases h2 : node.expire / 1048576 = w.m_time / 1048576
      · simp only [h2, if_true]
        rw [show TIME_NEAR_SHIFT + 1 * TIME_LEVEL_SHIFT = 14 from rfl, sar32_digit _ _ (by omega)]
        unfold level_slot
        split_ifs <;> simp_all [add_tail]
      · simp only [h2, if_false]
        by_cases h3 : node.expire / 67108864 = w.m_time / 67108864
        · simp only [h3, if_true]
          rw [show TIME_NEAR_SHIFT + 2 * TIME_LEVEL_SHIFT = 20 from rfl,
            sar32_digit _ _ (by omega)]
          unfold level_slot
          split_ifs <;> simp_all [add_tail]
        · simp only [h3, if_false]
          rw [show TIME_NEAR_SHIFT + 3 * TIME_LEVEL_SHIFT = 26 from rfl,
            sar32_digit _ _ (by omega)]
          unfold level_slot
          split_ifs <;> simp_all [add_tail]

theorem execute_loop_zero (w : Timer) (h : w.m_time = 0) (fuel msb i : Nat) :
    execute_loop w fuel msb 0 i = none := by
  induction fuel generalizing msb i with
  | zero => rfl
  | succ n ih =>
    unfold execute_loop
    have h1 : sar32 0 TIME_LEVEL_SHIFT = 0 := by decide
    simp [h, h1, ih]

theorem sar32_8 (m : Nat) : sar32 m 8 % 64 = m / 256 % 64 := by
  rw [← and_63, sar32_digit m 8 (by omega)]
  norm_num

theorem sar32_8_6 (m : Nat) : sar32 (sar32 m 8) 6 % 64 = m / 16384 % 64 := by
  unfold sar32
  simp only [Nat.shiftRight_eq_div_pow]
  norm_num
  split_ifs <;> omega

theorem sar32_8_6_6 (m : Nat) (hm : m < 2 ^ 32) :
    sar32 (sar32 (sar32 m 8) 6) 6 % 64 = m / 1048576 % 64 := by
  unfold sar32
  simp only [Nat.shiftRight_eq_div_pow]
  norm_num
  split_ifs <;> omega

theorem sar32_8_6_6_6 (m : Nat) (hm : m < 2 ^ 32) :
    sar32 (sar32 (sar32 (sar32 m 8) 6) 6) 6 % 64 = m / 67108864 % 64 := by
  unfold sar32
  simp only [Nat.shiftRight_eq_div_pow]
  norm_num
  split_ifs <;> omega

theorem execute_loop_eq (w : Timer) (fuel : Nat) (hf : 4 ≤ fuel) (hm : w.m_time < 2 ^ 32) :
    execute_loop w fuel TIME_NEAR (sar32 w.m_time TIME_NEAR_SHIFT) 0 =
      if w.m_time % 256 ≠ 0 then some w
      else if w.m_time / 256 % 64 ≠ 0 then
        execute_cascade 0 (w.m_time / 256 % 64 - 1) (w.t 0 (w.m_time / 256 % 64 - 1)) w
      else if w.m_time / 16384 % 64 ≠ 0 then
        execute_cascade 1 (w.m_time / 16384 % 64 - 1) (w.t 1 (w.m_time / 16384 % 64 - 1)) w
      else if w.m_time / 1048576 % 64 ≠ 0 then
        execute_cascade 2 (w.m_time / 1048576 % 64 - 1) (w.t 2 (w.m_time / 1048576 % 64 - 1)) w
      else if w.m_time / 67108864 % 64 ≠ 0 then
        execute_cascade 3 (w.m_time / 67108864 % 64 - 1)
          (w.t 3 (w.m_time / 67108864 % 64 - 1)) w
      else none := by
  obtain ⟨f, rfl⟩ : ∃ f, fuel = f + 4 := ⟨fuel - 4, by omega⟩
  have hl : TIME_LEVEL_MASK = 63 := by decide
  have e0 : shl32 TIME_NEAR TIME_LEVEL_SHIFT = 16384 := by decide
  have e1 : shl32 16384 TIME_LEVEL_SHIFT = 1048576 := by decide
  have e2 : shl32 1048576 TIME_LEVEL_SHIFT = 67108864 := by decide
  have s00 : sub32 TIME_NEAR 1 = 255 := by decide
  have s0 : sub32 16384 1 = 16383 := by decide
  have s1 : sub32 1048576 1 = 1048575 := by decide
  have s2 : sub32 67108864 1 = 67108863 := by decide
  have a0 : w.m_time &&& 16383 = w.m_time % 16384 := Nat.and_pow_two_sub_one_eq_mod _ 14
  have a1 : w.m_time &&& 1048575 = w.m_time % 1048576 := Nat.and_pow_two_sub_one_eq_mod _ 20
  have a2 : w.m_time &&& 67108863 = w.m_time % 67108864 := Nat.and_pow_two_sub_one_eq_mod _ 26
  by_cases c0 : w.m_time % 256 = 0
  swap
  · unfold execute_loop
    simp [s00, and_255, c0]
  by_cases d0 : w.m_time / 256 % 64 = 0
  swap
  · unfold execute_loop
    simp [s00, and_255, c0, hl, and_63, sar32_8, d0]
  by_cases d1 : w.m_time / 16384 % 64 = 0
  swap
  · unfold execute_loop
    simp only [s00, and_255, c0, hl, and_63, sar32_8, d0, e0, if_true, ne_eq, not_true,
      if_false, not_false_eq_true]
    unfold execute_loop
    have c1 : w.m_time % 16384 = 0 := by omega
    simp [s0, a0, c1, hl, and_63, sar32_8_6, d1]
  by_cases d2 : w.m_time / 1048576 % 64 = 0
  swap
  · unfold execute_loop
    simp only [s00, and_255, c0, hl, and_63, sar32_8, d0, e0, if_true, ne_eq, not_true,
      if_false, not_false_eq_true]
    unfold execute_loop
    have c1 : w.m_time % 16384 = 0 := by omega
    simp only [s0, a0, c1, hl, and_63, sar32_8_6, d1, e1, if_true, ne_eq, not_true,
      if_false, not_false_eq_true]
    unfold execute_loop
    have c2 : w.m_time % 1048576 = 0 := by omega
    simp [s1, a1, c2, hl, and_63, sar32_8_6_6 _ hm, d2]
  by_cases d3 : w.m_time / 67108864 % 64 = 0
  swap
  · unfold execute_loop
    simp only [s00, and_255, c0, hl, and_63, sar32_8, d0, e0, if_true, ne_eq, not_true,
      if_false, not_false_eq_true]
    unfold execute_loop
    have c1 : w.m_time % 16384 = 0 := by omega
    simp only [s0, a0, c1, hl, and_63, sar32_8_6, d1, e1, if_true, ne_eq, not_true,
      if_false, not_false_eq_true]
    unfold execute_loop
    have c2 : w.m_time % 1048576 = 0 := by omega
    simp only [s1, a1, c2, hl, and_63, sar32_8_6_6 _ hm, d2, e2, if_true, ne_eq, not_true,
      if_false, not_false_eq_true]
    unfold execute_loop
    have c3 : w.m_time % 67108864 = 0 := by omega
    simp [s2, a2, c3, hl, and_63, sar32_8_6_6_6 _ hm, d3]
  · have hz : w.m_time = 0 := by omega
    have hs : sar32 0 TIME_NEAR_SHIFT = 0 := by decide
    rw [hz, hs, execute_loop_zero w hz]
    simp
theorem place_some (C E : Nat) (h : C ≤ E) (h2 : E < 2 ^ 32) : ∃ s, place C E = some s := by
  unfold place level_slot
  split_ifs <;> first | exact ⟨_, rfl⟩ | (exfalso; omega)

theorem place_nocarry (C E : Nat) (hc : (C + 1) % 256 ≠ 0) : place (C + 1) E = place C E := by
  have h1 : (C + 1) / 256 = C / 256 := by omega
  have h2 : (C + 1) / 16384 = C / 16384 := by omega
  have h3 : (C + 1) / 1048576 = C / 1048576 := by omega
  have h4 : (C + 1) / 67108864 = C / 67108864 := by omega
  unfold place
  rw [h1, h2, h3, h4]


theorem placeq_never_src (a0 a1 a2 a3 b0 b1 b2 b3 n : Nat) (src : Slot)
    (hb1 : b1 = b0 / 64) (hb2 : b2 = b1 / 64) (hb3 : b3 = b2 / 64)
    (ha1 : a1 = a0 / 64) (ha2 : a2 = a1 / 64) (ha3 : a3 = a2 / 64)
    (ha : a3 < 64) (hb : b3 < 64)
    (hs : cascadeq a0 a1 a2 a3 = some src) :
    placeq a0 a1 a2 a3 b0 b1 b2 b3 n ≠ some src := by
  unfold cascadeq at hs
  unfold placeq level_slot
  split_ifs at hs <;> simp only [Option.some.injEq, reduceCtorEq] at hs <;> subst hs <;>
  split_ifs <;>
  simp only [ne_eq, Option.some.injEq, Slot.level.injEq, reduceCtorEq, not_false_eq_true,
    true_and, false_and] <;>
  omega

theorem placeq_carry_0 (a0 b0 n : Nat) (hlt : a0 < b0) (h0 : (a0 + 1) % 64 ≠ 0) :
    placeq (a0 + 1) ((a0 + 1) / 64) ((a0 + 1) / 64 / 64) ((a0 + 1) / 64 / 64 / 64)
        b0 (b0 / 64) (b0 / 64 / 64) (b0 / 64 / 64 / 64) n
      = placeq a0 (a0 / 64) (a0 / 64 / 64) (a0 / 64 / 64 / 64)
        b0 (b0 / 64) (b0 / 64 / 64) (b0 / 64 / 64 / 64) n
    ∨ placeq a0 (a0 / 64) (a0 / 64 / 64) (a0 / 64 / 64 / 64)
        b0 (b0 / 64) (b0 / 64 / 64) (b0 / 64 / 64 / 64) n
      = some (Slot.level 0 ((a0 + 1) % 64 - 1)) := by
  have e1 : (a0 + 1) / 64 = a0 / 64 := by omega
  have n0 : b0 ≠ a0 := by omega
  unfold placeq
  rw [e1, if_neg n0]
  by_cases h : b0 = a0 + 1
  · right
    have p1 : b0 / 64 = a0 / 64 := by omega
    have p2 : ¬ b0 % 64 = 0 := by omega
    rw [if_pos p1, level_slot, if_neg p2, h]
  · left
    rw [if_neg h]

theorem placeq_carry_1 (a0 b0 n : Nat) (hlt : a0 < b0) (h0 : (a0 + 1) % 64 = 0)
    (h1 : (a0 + 1) / 64 % 64 ≠ 0) :
    placeq (a0 + 1) ((a0 + 1) / 64) ((a0 + 1) / 64 / 64) ((a0 + 1) / 64 / 64 / 64)
        b0 (b0 / 64) (b0 / 64 / 64) (b0 / 64 / 64 / 64) n
      = placeq a0 (a0 / 64) (a0 / 64 / 64) (a0 / 64 / 64 / 64)
        b0 (b0 / 64) (b0 / 64 / 64) (b0 / 64 / 64 / 64) n
    ∨ placeq a0 (a0 / 64) (a0 / 64 / 64) (a0 / 64 / 64 / 64)
        b0 (b0 / 64) (b0 / 64 / 64) (b0 / 64 / 64 / 64) n
      = some (Slot.level 1 ((a0 + 1) / 64 % 64 - 1)) := by
  have e1 : (a0 + 1) / 64 = a0 / 64 + 1 := by omega
  have e2 : (a0 / 64 + 1) / 64 = a0 / 64 / 64 := by omega
  have n0 : b0 ≠ a0 := by omega
  have n1 : b0 / 64 ≠ a0 / 64 := by omega
  unfold placeq
  rw [e1, e2, if_neg n0, if_neg n1]
  by_cases h : b0 / 64 = a0 / 64 + 1
  · right
    have p1 : b0 / 64 / 64 = a0 / 64 / 64 := by omega
    have p2 : ¬ b0 / 64 % 64 = 0 := by omega
    rw [if_pos p1, level_slot, if_neg p2, h]
  · left
    have m0 : b0 ≠ a0 + 1 := by omega
    rw [if_neg m0, if_neg h]

theorem placeq_carry_2 (a0 b0 n : Nat) (hlt : a0 < b0) (h0 : (a0 + 1) % 64 = 0)
    (h1 : (a0 + 1) / 64 % 64 = 0) (h2 : (a0 + 1) / 64 / 64 % 64 ≠ 0) :
    placeq (a0 + 1) ((a0 + 1) / 64) ((a0 + 1) / 64 / 64) ((a0 + 1) / 64 / 64 / 64)
        b0 (b0 / 64) (b0 / 64 / 64) (b0 / 64 / 64 / 64) n
      = placeq a0 (a0 / 64) (a0 / 64 / 64) (a0 / 64 / 64 / 64)
        b0 (b0 / 64) (b0 / 64 / 64) (b0 / 64 / 64 / 64) n
    ∨ placeq a0 (a0 / 64) (a0 / 64 / 64) (a0 / 64 / 64 / 64)
        b0 (b0 / 64) (b0 / 64 / 64) (b0 / 64 / 64 / 64) n
      = some (Slot.level 2 ((a0 + 1) / 64 / 64 % 64 - 1)) := by
  have e1 : (a0 + 1) / 64 = a0 / 64 + 1 := by omega
  have e2 : (a0 / 64 + 1) / 64 = a0 / 64 / 64 + 1 := by omega
  have e3 : (a0 / 64 / 64 + 1) / 64 = a0 / 64 / 64 / 64 := by omega
  have n0 : b0 ≠ a0 := by omega
  have n1 : b0 / 64 ≠ a0 / 64 := by omega
  have n2 : b0 / 64 / 64 ≠ a0 / 64 / 64 := by omega
  unfold placeq
  rw [e1, e2, e3, if_neg n0, if_neg n1, if_neg n2]
  by_cases h : b0 / 64 / 64 = a0 / 64 / 64 + 1
  · right
    have p1 : b0 / 64 / 64 / 64 = a0 / 64 / 64 / 64 := by omega
    have p2 : ¬ b0 / 64 / 64 % 64 = 0 := by omega
    rw [if_pos p1, level_slot, if_neg p2, h]
  · left
    have m0 : b0 ≠ a0 + 1 := by omega
    have m1 : b0 / 64 ≠ a0 / 64 + 1 := by omega
    rw [if_neg m0, if_neg m1, if_neg h]

theorem placeq_carry_3 (a0 b0 n : Nat) (hlt : a0 < b0) (hb : b0 / 64 / 64 / 64 < 64)
    (h0 : (a0 + 1) % 64 = 0)
    (h1 : (a0 + 1) / 64 % 64 = 0) (h2 : (a0 + 1) / 64 / 64 % 64 = 0)
    (_h3 : (a0 + 1) / 64 / 64 / 64 % 64 ≠ 0) :
    placeq (a0 + 1) ((a0 + 1) / 64) ((a0 + 1) / 64 / 64) ((a0 + 1) / 64 / 64 / 64)
        b0 (b0 / 64) (b0 / 64 / 64) (b0 / 64 / 64 / 64) n
      = placeq a0 (a0 / 64) (a0 / 64 / 64) (a0 / 64 / 64 / 64)
        b0 (b0 / 64) (b0 / 64 / 64) (b0 / 64 / 64 / 64) n
    ∨ placeq a0 (a0 / 64) (a0 / 64 / 64) (a0 / 64 / 64 / 64)
        b0 (b0 / 64) (b0 / 64 / 64) (b0 / 64 / 64 / 64) n
      = some (Slot.level 3 ((a0 + 1) / 64 / 64 / 64 % 64 - 1)) := by
  have e1 : (a0 + 1) / 64 = a0 / 64 + 1 := by omega
  have e2 : (a0 / 64 + 1) / 64 = a0 / 64 / 64 + 1 := by omega
  have e3 : (a0 / 64 / 64 + 1) / 64 = a0 / 64 / 64 / 64 + 1 := by omega
  have n0 : b0 ≠ a0 := by omega
  have n1 : b0 / 64 ≠ a0 / 64 := by omega
  have n2 : b0 / 64 / 64 ≠ a0 / 64 / 64 := by omega
  have n3 : b0 / 64 / 64 / 64 ≠ a0 / 64 / 64 / 64 := by omega
  unfold placeq
  rw [e1, e2, e3, if_neg n0, if_neg n1, if_neg n2, if_neg n3]
  by_cases h : b0 / 64 / 64 / 64 = a0 / 64 / 64 / 64 + 1
  · right
    have p2 : ¬ b0 / 64 / 64 / 64 % 64 = 0 := by omega
    rw [level_slot, if_neg p2, h]
  · left
    have m0 : b0 ≠ a0 + 1 := by omega
    have m1 : b0 / 64 ≠ a0 / 64 + 1 := by omega
    have m2 : b0 / 64 / 64 ≠ a0 / 64 / 64 + 1 := by omega
    rw [if_neg m0, if_neg m1, if_neg m2, if_neg h]

theorem place_eq_placeq (C E : Nat) :
    place C E = placeq (C / 256) (C / 256 / 64) (C / 256 / 64 / 64) (C / 256 / 64 / 64 / 64)
      (E / 256) (E / 256 / 64) (E / 256 / 64 / 64) (E / 256 / 64 / 64 / 64) (E % 256) := by
  have h1 : C / 256 / 64 = C / 16384 := by omega
  have h2 : C / 256 / 64 / 64 = C / 1048576 := by omega
  have h3 : C / 256 / 64 / 64 / 64 = C / 67108864 := by omega
  have h4 : E / 256 / 64 = E / 16384 := by omega
  have h5 : E / 256 / 64 / 64 = E / 1048576 := by omega
  have h6 : E / 256 / 64 / 64 / 64 = E / 67108864 := by omega
  rw [h3, h2, h1, h6, h5, h4]
  rfl

theorem cascade_slot_eq (m : Nat) (h : m % 256 = 0) :
    cascade_slot m = cascadeq (m / 256) (m / 256 / 64) (m / 256 / 64 / 64)
      (m / 256 / 64 / 64 / 64) := by
  have h1 : m / 256 / 64 = m / 16384 := by omega
  have h2 : m / 256 / 64 / 64 = m / 1048576 := by omega
  have h3 : m / 256 / 64 / 64 / 64 = m / 67108864 := by omega
  rw [h3, h2, h1]
  unfold cascade_slot cascadeq
  simp [h]

theorem place_carry (C E : Nat) (hCE : C < E) (hE : E < 2 ^ 32) (src : Slot)
    (hc : (C + 1) % 256 = 0) (hs : cascade_slot (C + 1) = some src) :
    place (C + 1) E = place C E ∨ place C E = some src := by
  rw [cascade_slot_eq _ hc] at hs
  rw [place_eq_placeq (C + 1) E, place_eq_placeq C E]
  have e0 : (C + 1) / 256 = C / 256 + 1 := by omega
  have hlt : C / 256 < E / 256 := by omega
  have hb : E / 256 / 64 / 64 / 64 < 64 := by omega
  rw [e0] at hs ⊢
  unfold cascadeq at hs
  by_cases h0 : (C / 256 + 1) % 64 = 0
  swap
  · rw [if_pos h0] at hs
    cases hs
    exact placeq_carry_0 _ _ _ hlt h0
  rw [if_neg (not_not.mpr h0)] at hs
  by_cases h1 : (C / 256 + 1) / 64 % 64 = 0
  swap
  · rw [if_pos h1] at hs
    cases hs
    exact placeq_carry_1 _ _ _ hlt h0 h1
  rw [if_neg (not_not.mpr h1)] at hs
  by_cases h2 : (C / 256 + 1) / 64 / 64 % 64 = 0
  swap
  · rw [if_pos h2] at hs
    cases hs
    exact placeq_carry_2 _ _ _ hlt h0 h1 h2
  rw [if_neg (not_not.mpr h2)] at hs
  by_cases h3 : (C / 256 + 1) / 64 / 64 / 64 % 64 = 0
  swap
  · rw [if_pos h3] at hs
    cases hs
    exact placeq_carry_3 _ _ _ hlt hb h0 h1 h2 h3
  rw [if_neg (not_not.mpr h3)] at hs
  cases hs

theorem place_never_src (C E : Nat) (hC : C < 2 ^ 32) (hE : E < 2 ^ 32) (src : Slot)
    (hc : C % 256 = 0) (hs : cascade_slot C = some src) : place C E ≠ some src := by
  rw [cascade_slot_eq _ hc] at hs
  rw [place_eq_placeq C E]
  exact placeq_never_src _ _ _ _ _ _ _ _ _ _ rfl rfl rfl rfl rfl rfl (by omega) (by omega) hs

theorem place_near_iff (C E j : Nat) :
    place C E = some (Slot.near j) ↔ E / 256 = C / 256 ∧ E % 256 = j := by
  unfold place level_slot
  split_ifs <;> simp_all

theorem place_level_bound (C E i idx : Nat) (h : place C E = some (Slot.level i idx)) :
    i < 4 ∧ idx < 63 := by
  unfold place level_slot at h
  split_ifs at h <;> simp only [Option.some.injEq, Slot.level.injEq, reduceCtorEq] at h <;>
    omega

theorem cascade_slot_some (m : Nat) (h0 : m ≠ 0) (h1 : m < 2 ^ 32) (hc : m % 256 = 0) :
    ∃ i idx, cascade_slot m = some (Slot.level i idx) ∧ i < 4 := by
  unfold cascade_slot
  split_ifs
  · omega
  · exact ⟨0, _, rfl, by omega⟩
  · exact ⟨1, _, rfl, by omega⟩
  · exact ⟨2, _, rfl, by omega⟩
  · exact ⟨3, _, rfl, by omega⟩
  · omega
theorem bucket_add_tail (w : Timer) (s x : Slot) (n : timer_node) :
    bucket (add_tail w s n) x = if x = s then bucket w s ++ [n] else bucket w x := by
  cases s with
  | near j =>
    cases x with
    | near k =>
      by_cases h : k = j
      · subst h; simp [add_tail, bucket, near_add_tail, upd]
      · simp [add_tail, bucket, near_add_tail, upd, h]
    | level i k => simp [add_tail, bucket, near_add_tail]
  | level i j =>
    cases x with
    | near k => simp [add_tail, bucket, t_add_tail]
    | level i2 k =>
      by_cases h1 : i2 = i
      · subst h1
        by_cases h2 : k = j
        · subst h2; simp [add_tail, bucket, t_add_tail, upd]
        · simp [add_tail, bucket, t_add_tail, upd, h2]
      · simp [add_tail, bucket, t_add_tail, upd, h1]

theorem bucket_t_set (w : Timer) (i j : Nat) (l : List timer_node) (x : Slot) :
    bucket (w.t_set i j l) x = if x = Slot.level i j then l else bucket w x := by
  cases x with
  | near k => simp [bucket, t_set]
  | level i2 k =>
    by_cases h1 : i2 = i
    · subst h1
      by_cases h2 : k = j
      · subst h2; simp [bucket, t_set, upd]
      · simp [bucket, t_set, upd, h2]
    · simp [bucket, t_set, upd, h1]

@[simp] theorem add_tail_m_time (w : Timer) (s : Slot) (n : timer_node) :
    (add_tail w s n).m_time = w.m_time := by
  cases s <;> rfl

@[simp] theorem add_tail_m_current (w : Timer) (s : Slot) (n : timer_node) :
    (add_tail w s n).m_current = w.m_current := by
  cases s <;> rfl

@[simp] theorem add_tail_m_starttime (w : Timer) (s : Slot) (n : timer_node) :
    (add_tail w s n).m_starttime = w.m_starttime := by
  cases s <;> rfl

/-- Effect of the cascade walk over the content `L` of the bucket `t[i][idx]`, when every
record of `L` is placed into some other bucket. -/
theorem execute_cascade_spec (i idx : Nat) (L : List timer_node) (w : Timer)
    (hL : bucket w (Slot.level i idx) = L)
    (hp : ∀ n ∈ L, ∃ s, place w.m_time n.expire = some s ∧ s ≠ Slot.level i idx) :
    ∃ w2, execute_cascade i idx L w = some w2 ∧ w2.m_time = w.m_time ∧
      w2.m_current = w.m_current ∧ w2.m_starttime = w.m_starttime ∧
      ∀ x, bucket w2 x = if x = Slot.level i idx then []
        else bucket w x ++ L.filter (fun n => place w.m_time n.expire = some x) := by
  induction L generalizing w with
  | nil =>
    refine ⟨w, rfl, rfl, rfl, rfl, ?_⟩
    intro x
    by_cases hx : x = Slot.level i idx
    · subst hx; simp [hL]
    · simp [hx]
  | cons node rest ih =>
    obtain ⟨s, hs, hne⟩ := hp node (List.mem_cons_self _ _)
    have h1 : add_node (w.t_set i idx rest) node
        = some (add_tail (w.t_set i idx rest) s node) := by
      rw [add_node_eq]
      have : (w.t_set i idx rest).m_time = w.m_time := rfl
      rw [this, hs]
      rfl
    obtain ⟨w2, e, hm, hc, hst, hb⟩ := ih (add_tail (w.t_set i idx rest) s node)
      (by rw [bucket_add_tail, if_neg (Ne.symm hne), bucket_t_set, if_pos rfl])
      (by
        intro n hn
        simpa using hp n (List.mem_cons_of_mem _ hn))
    refine ⟨w2, ?_, ?_, ?_, ?_, ?_⟩
    · simp only [execute_cascade, h1]
      exact e
    · rw [hm]; simp; rfl
    · rw [hc]; simp; rfl
    · rw [hst]; simp; rfl
    · intro x
      rw [hb x]
      by_cases hx : x = Slot.level i idx
      · simp [hx]
      · simp only [hx, if_false, add_tail_m_time]
        have hmt : (w.t_set i idx rest).m_time = w.m_time := rfl
        rw [bucket_add_tail]
        by_cases hxs : x = s
        · subst hxs
          rw [if_pos rfl, bucket_t_set, if_neg hx, hmt]
          simp [List.filter_cons, hs]
        · have : ¬ (place w.m_time node.expire = some x) := by
            rw [hs]; intro h; exact hxs (Option.some.inj h).symm
          rw [if_neg hxs, bucket_t_set, if_neg hx, hmt]
          simp [List.filter_cons, this]

/-! ## The wheel as a family of queues -/

theorem queue_eq (w : Timer) (E : Nat) (s : Slot) (h : place w.m_time E = some s) :
    queue w E = (bucket w s).filter (fun n => n.expire = E) := by
  simp [queue, h]

theorem queue_eq_nil (w : Timer) (hI : Inv w) (E : Nat)
    (h : ¬ (w.m_time ≤ E ∧ E < 2 ^ 32)) : queue w E = [] := by
  unfold queue
  cases hp : place w.m_time E with
  | none => rfl
  | some s =>
    simp only
    rw [List.filter_eq_nil_iff]
    intro n hn he
    simp only [decide_eq_true_eq] at he
    have := hI.2 s n hn
    apply h
    rw [← he]
    exact ⟨this.1, this.2.1⟩

theorem filter_expire_bucket (w : Timer) (hI : Inv w) (s : Slot) (E : Nat)
    (h : place w.m_time E ≠ some s) : (bucket w s).filter (fun n => n.expire = E) = [] := by
  rw [List.filter_eq_nil_iff]
  intro n hn he
  simp only [decide_eq_true_eq] at he
  have := (hI.2 s n hn).2.2
  rw [he] at this
  exact h this

theorem execute_loop_eq2 (w : Timer) (fuel : Nat) (hf : 4 ≤ fuel) (hm : w.m_time < 2 ^ 32) :
    execute_loop w fuel TIME_NEAR (sar32 w.m_time TIME_NEAR_SHIFT) 0 =
      if w.m_time % 256 ≠ 0 then some w
      else match cascade_slot w.m_time with
        | some (Slot.level i idx) => execute_cascade i idx (w.t i idx) w
        | _ => none := by
  rw [execute_loop_eq w fuel hf hm]
  unfold cascade_slot
  split_ifs <;> rfl

theorem add32_one (C : Nat) (h : C + 1 < 2 ^ 32) : add32 C 1 = C + 1 := by
  unfold add32
  exact Nat.mod_eq_of_lt h

/-- A call of `timeout` with a delay `d > 0` whose expiry stays below `2^32` appends the new
record to the bucket that the placement rule gives. -/
theorem timeout_eq_add_tail (ctx : Context) (w : Timer) (handle d : Nat) (session : Int)
    (s : Slot) (hd : 0 < d) (h : w.m_time + d < 2 ^ 32)
    (hs : place w.m_time (w.m_time + d) = some s) :
    timeout ctx w handle d session
      = some (add_tail w s ⟨w.m_time + d, ⟨handle, session⟩⟩, session, []) := by
  have he : add32 d w.m_time = w.m_time + d := by
    unfold add32
    rw [Nat.add_comm]
    exact Nat.mod_eq_of_lt h
  unfold timeout
  rw [if_neg (by omega), he]
  simp only [add_node_eq, hs, Option.map_some']

theorem timeout_spec (ctx : Context) (w : Timer) (hI : Inv w) (handle d : Nat) (session : Int)
    (hd : 0 < d) (h : w.m_time + d < 2 ^ 32) :
    ∃ w1 s, timeout ctx w handle d session = some (w1, session, []) ∧ Inv w1 ∧
      w1.m_time = w.m_time ∧ w1.m_current = w.m_current ∧ w1.m_starttime = w.m_starttime ∧
      place w.m_time (w.m_time + d) = some s ∧
      (∀ x, bucket w1 x = if x = s then bucket w s ++ [⟨w.m_time + d, ⟨handle, session⟩⟩]
        else bucket w x) ∧
      ∀ E, queue w1 E = if E = w.m_time + d
        then queue w E ++ [⟨w.m_time + d, ⟨handle, session⟩⟩] else queue w E := by
  obtain ⟨s, hs⟩ := place_some w.m_time (w.m_time + d) (by omega) h
  have he : add32 d w.m_time = w.m_time + d := by
    unfold add32
    rw [Nat.add_comm]
    exact Nat.mod_eq_of_lt h
  refine ⟨add_tail w s ⟨w.m_time + d, ⟨handle, session⟩⟩, s, ?_, ?_, ?_, ?_, ?_, hs, ?_, ?_⟩
  · unfold timeout
    rw [if_neg (by omega), he]
    simp only [add_node_eq, hs, Option.map_some']
  · refine ⟨by simpa using hI.1, ?_⟩
    intro x n hn
    rw [bucket_add_tail] at hn
    rw [add_tail_m_time]
    by_cases hx : x = s
    · subst hx
      rw [if_pos rfl, List.mem_append] at hn
      rcases hn with hn | hn
      · exact hI.2 x n hn
      · simp only [List.mem_singleton] at hn
        subst hn
        exact ⟨by simp, h, hs⟩
    · rw [if_neg hx] at hn
      exact hI.2 x n hn
  · simp
  · simp
  · simp
  · intro x
    exact bucket_add_tail w s x _
  · intro E
    unfold queue
    rw [add_tail_m_time]
    cases hp : place w.m_time E with
    | none =>
      have : E ≠ w.m_time + d := by
        intro h'; rw [h', hs] at hp; cases hp
      simp [this]
    | some x =>
      simp only [bucket_add_tail]
      by_cases hE : E = w.m_time + d
      · subst hE
        rw [hs] at hp
        cases hp
        simp [List.filter_append]
      · rw [if_neg hE]
        by_cases hx : x = s
        · subst hx
          simp [List.filter_append, List.filter_cons]
          intro h'; exact hE h'.symm
        · rw [if_neg hx]

theorem bucket_drain (w : Timer) (j m : Nat) (x : Slot) :
    bucket { w with near := upd w.near j [], m_time := m } x =
      if x = Slot.near j then [] else bucket w x := by
  cases x with
  | near k =>
    by_cases h : k = j
    · subst h; simp [bucket, upd]
    · simp [bucket, upd, h]
  | level i k => simp [bucket]

theorem fired_eq (w : Timer) : fired w = bucket w (Slot.near (w.m_time % 256)) := by
  unfold fired bucket
  have hm : TIME_NEAR_MASK = 255 := by decide
  rw [hm, and_255]

theorem near_due (w : Timer) (hI : Inv w) (n : timer_node)
    (hn : n ∈ bucket w (Slot.near (w.m_time % 256))) : n.expire = w.m_time := by
  have h := hI.2 _ n hn
  have h2 := (place_near_iff _ _ _).mp h.2.2
  omega

theorem not_due (w : Timer) (hI : Inv w) (x : Slot) (hx : x ≠ Slot.near (w.m_time % 256))
    (n : timer_node) (hn : n ∈ bucket w x) : w.m_time < n.expire := by
  have h := hI.2 _ n hn
  rcases Nat.lt_or_ge w.m_time n.expire with h1 | h1
  · exact h1
  · exfalso
    have he : n.expire = w.m_time := by omega
    rw [he] at h
    have : place w.m_time w.m_time = some (Slot.near (w.m_time % 256)) := by
      rw [place_near_iff]; exact ⟨rfl, rfl⟩
    rw [this] at h
    exact hx (Option.some.inj h.2.2).symm

theorem fired_eq_queue (w : Timer) (hI : Inv w) : fired w = queue w w.m_time := by
  have hp : place w.m_time w.m_time = some (Slot.near (w.m_time % 256)) := by
    rw [place_near_iff]; exact ⟨rfl, rfl⟩
  rw [fired_eq, queue_eq _ _ _ hp]
  symm
  rw [List.filter_eq_self]
  intro n hn
  simp [near_due w hI n hn]

theorem execute_spec (ctx : Context) (fuel : Nat) (hf : 4 ≤ fuel) (w : Timer) (hI : Inv w)
    (hC : w.m_time + 1 < 2 ^ 32) :
    ∃ w2, execute ctx fuel w = some (w2, execute_near ctx (fired w)) ∧ Inv w2 ∧
      w2.m_time = w.m_time + 1 ∧ w2.m_current = w.m_current ∧
      w2.m_starttime = w.m_starttime ∧
      ∀ E, queue w2 E = if E = w.m_time then [] else queue w E := by
  have hm : TIME_NEAR_MASK = 255 := by decide
  -- the state after the drain and the increment
  obtain ⟨w1, hw1⟩ : ∃ w1 : Timer, w1 =
    { w with near := upd w.near (w.m_time % 256) [], m_time := w.m_time + 1 } := ⟨_, rfl⟩
  have hb1 : ∀ x, bucket w1 x = if x = Slot.near (w.m_time % 256) then [] else bucket w x := by
    intro x; rw [hw1]; exact bucket_drain w _ _ x
  have hm1 : w1.m_time = w.m_time + 1 := by rw [hw1]
  have hex : execute ctx fuel w =
      match execute_loop w1 fuel TIME_NEAR (sar32 w1.m_time TIME_NEAR_SHIFT) 0 with
      | none => none
      | some w2 => some (w2, execute_near ctx (fired w)) := by
    unfold execute fired
    simp only [hm, and_255, add32_one _ hC]
    subst hw1
    rfl
  -- records left after the drain
  have hmid : ∀ x, ∀ n ∈ bucket w1 x, x ≠ Slot.near (w.m_time % 256) ∧ n ∈ bucket w x ∧
      w.m_time < n.expire ∧ n.expire < 2 ^ 32 ∧ place w.m_time n.expire = some x := by
    intro x n hn
    rw [hb1] at hn
    by_cases hx : x = Slot.near (w.m_time % 256)
    · rw [if_pos hx] at hn; cases hn
    · rw [if_neg hx] at hn
      exact ⟨hx, hn, not_due w hI x hx n hn, (hI.2 x n hn).2.1, (hI.2 x n hn).2.2⟩
  rw [hex, execute_loop_eq2 w1 fuel hf (by omega), hm1]
  by_cases hc : (w.m_time + 1) % 256 = 0
  swap
  · -- no carry: nothing is cascaded
    rw [if_pos hc]
    have hI1 : Inv w1 := by
      refine ⟨by omega, ?_⟩
      intro x n hn
      obtain ⟨_, _, h1, h2, h3⟩ := hmid x n hn
      rw [hm1, place_nocarry _ _ hc]
      exact ⟨by omega, h2, h3⟩
    refine ⟨w1, rfl, hI1, hm1, by rw [hw1], by rw [hw1], ?_⟩
    intro E
    by_cases hE : E = w.m_time
    · rw [if_pos hE]
      exact queue_eq_nil w1 hI1 E (by omega)
    · rw [if_neg hE]
      unfold queue
      rw [hm1, place_nocarry _ _ hc]
      cases hp : place w.m_time E with
      | none => rfl
      | some s =>
        simp only
        rw [hb1]
        by_cases hs : s = Slot.near (w.m_time % 256)
        · exfalso
          rw [hs, place_near_iff] at hp
          apply hE
          have := Nat.div_add_mod E 256
          have := Nat.div_add_mod w.m_time 256
          omega
        · rw [if_neg hs]
  · -- carry: one level bucket is cascaded
    rw [if_neg (not_not.mpr hc)]
    obtain ⟨i, idx, hcs, _⟩ := cascade_slot_some (w.m_time + 1) (by omega) hC hc
    rw [hcs]
    simp only
    have hsrc : Slot.level i idx ≠ Slot.near (w.m_time % 256) := by simp
    have hL : bucket w1 (Slot.level i idx) = w1.t i idx := rfl
    obtain ⟨w2, e2, hm2, hc2, hs2, hb2⟩ := execute_cascade_spec i idx (w1.t i idx) w1 hL (by
      intro n hn
      rw [← hL] at hn
      obtain ⟨_, _, h1, h2, _⟩ := hmid _ n hn
      rw [hm1]
      obtain ⟨s, hs⟩ := place_some (w.m_time + 1) n.expire (by omega) h2
      refine ⟨s, hs, ?_⟩
      intro hss
      rw [hss] at hs
      exact place_never_src _ _ hC h2 _ hc hcs hs)
    rw [hm1] at hb2
    have hI2 : Inv w2 := by
      refine ⟨by rw [hm2, hm1]; exact hC, ?_⟩
      intro x n hn
      rw [hm2, hm1]
      rw [hb2] at hn
      by_cases hx : x = Slot.level i idx
      · rw [if_pos hx] at hn; cases hn
      · rw [if_neg hx, List.mem_append] at hn
        rcases hn with hn | hn
        · obtain ⟨_, _, h1, h2, h3⟩ := hmid x n hn
          refine ⟨by omega, h2, ?_⟩
          rcases place_carry w.m_time n.expire h1 h2 _ hc hcs with h4 | h4
          · rw [h4]; exact h3
          · rw [h3] at h4; exact absurd (Option.some.inj h4) hx
        · simp only [List.mem_filter, decide_eq_true_eq] at hn
          rw [← hL] at hn
          obtain ⟨_, _, h1, h2, _⟩ := hmid _ n hn.1
          exact ⟨by omega, h2, hn.2⟩
    refine ⟨w2, by rw [e2], hI2, by rw [hm2, hm1], by rw [hc2, hw1], by rw [hs2, hw1], ?_⟩
    intro E
    by_cases hE : E = w.m_time
    · rw [if_pos hE]
      exact queue_eq_nil w2 hI2 E (by rw [hm2, hm1]; omega)
    rw [if_neg hE]
    by_cases hr : w.m_time ≤ E ∧ E < 2 ^ 32
    swap
    · rw [queue_eq_nil w hI E hr]
      exact queue_eq_nil w2 hI2 E (by rw [hm2, hm1]; omega)
    have hlt : w.m_time < E := by omega
    obtain ⟨s, hs⟩ := place_some w.m_time E hr.1 hr.2
    obtain ⟨s', hs'⟩ := place_some (w.m_time + 1) E (by omega) hr.2
    have hns' : s' ≠ Slot.level i idx := by
      intro h; rw [h] at hs'
      exact place_never_src _ _ hC hr.2 _ hc hcs hs'
    have hsn : s ≠ Slot.near (w.m_time % 256) := by
      intro h
      rw [h, place_near_iff] at hs
      apply hE
      have := Nat.div_add_mod E 256
      have := Nat.div_add_mod w.m_time 256
      omega
    rw [queue_eq w E s hs, queue_eq w2 E s' (by rw [hm2, hm1]; exact hs'), hb2, if_neg hns',
      List.filter_append, List.filter_filter]
    rcases place_carry w.m_time E hlt hr.2 _ hc hcs with h4 | h4
    · -- the record stays where it is
      have hss : s' = s := by rw [hs', hs] at h4; exact Option.some.inj h4
      subst hss
      have h5 : List.filter (fun a => decide (a.expire = E) &&
          decide (place (w.m_time + 1) a.expire = some s')) (w1.t i idx) = [] := by
        rw [List.filter_eq_nil_iff]
        intro n hn
        rw [← hL] at hn
        obtain ⟨_, _, _, _, h3⟩ := hmid _ n hn
        simp only [Bool.and_eq_true, decide_eq_true_eq, not_and]
        intro he
        rw [he] at h3
        rw [hs] at h3
        exact absurd (Option.some.inj h3) hns' 
      rw [h5, List.append_nil, hb1, if_neg hsn]
    · -- the record is moved out of the cascaded bucket
      have hss : s = Slot.level i idx := by rw [hs] at h4; exact Option.some.inj h4
      subst hss
      have h5 : List.filter (fun n => decide (n.expire = E)) (bucket w1 s') = [] := by
        rw [List.filter_eq_nil_iff]
        intro n hn
        obtain ⟨_, _, _, _, h3⟩ := hmid _ n hn
        simp only [decide_eq_true_eq]
        intro he
        rw [he, hs] at h3
        exact hns' (Option.some.inj h3).symm
      rw [h5, List.nil_append, ← hL, hb1, if_neg hsrc]
      apply List.filter_congr
      intro n _
      by_cases he : n.expire = E
      · simp [he, hs']
      · simp [he]

theorem flatMap_range_single {α : Type} (f : Nat → List α) (j n : Nat) (hj : j < n)
    (h : ∀ i, i ≠ j → f i = []) : (List.range n).flatMap f = f j := by
  induction n with
  | zero => omega
  | succ n ih =>
    rw [List.range_succ, List.flatMap_append, List.flatMap_singleton]
    by_cases hn : j = n
    · subst hn
      have : (List.range j).flatMap f = [] := by
        rw [List.flatMap_eq_nil_iff]
        intro x hx
        rw [List.mem_range] at hx
        exact h x (by omega)
      rw [this, List.nil_append]
    · rw [ih (by omega), h n (fun h' => hn h'.symm), List.append_nil]

theorem flatMap_range_nil {α : Type} (f : Nat → List α) (n : Nat) (h : ∀ i, f i = []) :
    (List.range n).flatMap f = [] := by
  rw [List.flatMap_eq_nil_iff]
  intro x _
  exact h x

/-- Under the invariant the pending records with expiry `E` all lie in one bucket. -/
theorem pending_eq_queue (w : Timer) (hI : Inv w) (E : Nat) : pending w E = queue w E := by
  unfold pending all_nodes
  rw [List.filter_append, List.filter_flatMap, List.filter_flatMap]
  have hin : ∀ i, ((List.range 63).flatMap (w.t i)).filter (fun n => decide (n.expire = E))
      = (List.range 63).flatMap (fun j => (w.t i j).filter (fun n => decide (n.expire = E))) := by
    intro i; rw [List.filter_flatMap]
  simp only [hin]
  have hn : ∀ j, (w.near j).filter (fun n => decide (n.expire = E))
      = (bucket w (Slot.near j)).filter (fun n => decide (n.expire = E)) := fun _ => rfl
  have hl : ∀ i j, (w.t i j).filter (fun n => decide (n.expire = E))
      = (bucket w (Slot.level i j)).filter (fun n => decide (n.expire = E)) := fun _ _ => rfl
  cases hp : place w.m_time E with
  | none =>
    have hq : queue w E = [] := by simp [queue, hp]
    rw [hq, flatMap_range_nil, flatMap_range_nil, List.append_nil]
    · intro i
      apply flatMap_range_nil
      intro j
      rw [hl]
      exact filter_expire_bucket w hI _ E (by rw [hp]; simp)
    · intro j
      rw [hn]
      exact filter_expire_bucket w hI _ E (by rw [hp]; simp)
  | some s =>
    rw [queue_eq w E s hp]
    cases s with
    | near j =>
      have hj : j < 256 := by
        have := (place_near_iff _ _ _).mp hp
        omega
      rw [flatMap_range_single _ j 256 hj, flatMap_range_nil, List.append_nil]
      · rfl
      · intro i
        apply flatMap_range_nil
        intro k
        rw [hl]
        exact filter_expire_bucket w hI _ E (by rw [hp]; simp)
      · intro i hi
        rw [hn]
        exact filter_expire_bucket w hI _ E (by rw [hp]; simp [Ne.symm hi])
    | level i j =>
      obtain ⟨hi, hj⟩ := place_level_bound _ _ _ _ hp
      rw [flatMap_range_nil, flatMap_range_single _ i 4 hi, flatMap_range_single _ j 63 hj,
        List.nil_append]
      · rfl
      · intro k hk
        rw [hl]
        exact filter_expire_bucket w hI _ E (by rw [hp]; simp [Ne.symm hk])
      · intro k hk
        apply flatMap_range_nil
        intro l
        rw [hl]
        exact filter_expire_bucket w hI _ E (by rw [hp]; simp [Ne.symm hk])
      · intro k
        rw [hn]
        exact filter_expire_bucket w hI _ E (by rw [hp]; simp)

theorem execute_loop_mono (w : Timer) (fuel msb time i : Nat) (r : Timer)
    (h : execute_loop w fuel msb time i = some r) :
    execute_loop w (fuel + 1) msb time i = some r := by
  induction fuel generalizing msb time i with
  | zero => simp [execute_loop] at h
  | succ n ih =>
    unfold execute_loop at h ⊢
    simp only at h ⊢
    split_ifs at h ⊢
    · exact h
    · exact ih _ _ _ h
    · exact h

theorem execute_mono (ctx : Context) (w : Timer) (fuel k : Nat) (r : Timer × List PushCall)
    (h : execute ctx fuel w = some r) : execute ctx (fuel + k) w = some r := by
  induction k with
  | zero => exact h
  | succ k ih =>
    unfold execute at ih ⊢
    simp only at ih ⊢
    split at ih
    · cases ih
    · next w2 he =>
      rw [← Nat.add_assoc, execute_loop_mono _ _ _ _ _ _ he]
      exact ih

/-- At the counter value `2^32 - 1` the increment wraps to `0` and the cascade loop of
`execute` never exits. -/
theorem execute_wrap (ctx : Context) (fuel : Nat) (w : Timer) (h : w.m_time = 2 ^ 32 - 1) :
    execute ctx fuel w = none := by
  unfold execute
  have h0 : add32 w.m_time 1 = 0 := by rw [h]; decide
  simp only [h0]
  have hs : sar32 0 TIME_NEAR_SHIFT = 0 := by decide
  rw [hs, execute_loop_zero _ rfl]

theorem construct_inv (ct sec ct2 : Nat) : Inv (construct ct sec ct2) := by
  refine ⟨by simp [construct], ?_⟩
  intro s n hn
  cases s <;> simp [bucket, construct] at hn

theorem step_inv (ctx : Context) (w w1 : Timer) (hI : Inv w) (hs : Step ctx w w1) : Inv w1 := by
  cases hs with
  | timeout handle time session r out hr ht =>
    by_cases h0 : time = 0
    · subst h0
      unfold timeout at ht
      simp only [if_true] at ht
      split_ifs at ht <;> cases ht <;> exact hI
    · obtain ⟨w2, _, e, hI2, _⟩ := timeout_spec ctx w hI handle time session (by omega)
        (by omega)
      rw [e] at ht
      cases ht
      exact hI2
  | execute fuel out he =>
    have hlt : w.m_time + 1 < 2 ^ 32 := by
      by_contra hcon
      have : w.m_time = 2 ^ 32 - 1 := by have := hI.1; omega
      rw [execute_wrap ctx fuel w this] at he
      cases he
    obtain ⟨w2, e, hI2, _⟩ := execute_spec ctx (fuel + 4) (by omega) w hI hlt
    rw [execute_mono ctx w fuel 4 _ he] at e
    cases e
    exact hI2

/-- Effect of `k` consecutive calls of `execute` on a state that satisfies the invariant,
as long as the counter does not reach `2^32`. -/
theorem run_spec (ctx : Context) (fuel : Nat) (hf : 4 ≤ fuel) (k : Nat) (w : Timer)
    (hI : Inv w) (hk : w.m_time + k < 2 ^ 32) :
    ∃ wk, updatetime_loop ctx fuel k w = some (wk,
        (List.range k).flatMap (fun j => execute_near ctx (queue w (w.m_time + j)))) ∧
      Inv wk ∧ wk.m_time = w.m_time + k ∧ wk.m_current = w.m_current ∧
      wk.m_starttime = w.m_starttime ∧
      ∀ E, queue wk E = if E < w.m_time + k then [] else queue w E := by
  induction k generalizing w with
  | zero =>
    refine ⟨w, rfl, hI, rfl, rfl, rfl, ?_⟩
    intro E
    by_cases h : E < w.m_time + 0
    · rw [if_pos h]; exact queue_eq_nil w hI E (by omega)
    · rw [if_neg h]
  | succ k ih =>
    obtain ⟨w1, e1, hI1, hm1, hc1, hs1, hq1⟩ := execute_spec ctx fuel hf w hI (by omega)
    obtain ⟨wk, ek, hIk, hmk, hck, hsk, hqk⟩ := ih w1 hI1 (by omega)
    refine ⟨wk, ?_, hIk, by omega, by rw [hck, hc1], by rw [hsk, hs1], ?_⟩
    · rw [updatetime_loop, e1]
      simp only
      rw [ek]
      simp only
      rw [List.range_succ_eq_map, List.flatMap_cons, List.flatMap_map, fired_eq_queue w hI,
        Nat.add_zero]
      have hfun : (fun j => execute_near ctx (queue w1 (w1.m_time + j))) =
          (fun a => execute_near ctx (queue w (w.m_time + Nat.succ a))) := by
        funext j
        rw [hq1, if_neg (by omega), hm1]
        congr 2
        omega
      rw [hfun]
    · intro E
      rw [hqk, hq1, hm1]
      by_cases h1 : E < w.m_time + 1 + k
      · rw [if_pos h1, if_pos (by omega)]
      · rw [if_neg h1, if_neg (by omega), if_neg (by omega)]

theorem add_node_set_current (w : Timer) (c : Nat) (node : timer_node) :
    add_node (set_current w c) node = (add_node w node).map (fun r => set_current r c) := by
  unfold add_node
  simp only [set_current]
  split_ifs <;> rfl

theorem execute_cascade_set_current (i idx : Nat) (L : List timer_node) (w : Timer) (c : Nat) :
    execute_cascade i idx L (set_current w c)
      = (execute_cascade i idx L w).map (fun r => set_current r c) := by
  induction L generalizing w with
  | nil => rfl
  | cons node rest ih =>
    unfold execute_cascade
    have h : (set_current w c).t_set i idx rest = set_current (w.t_set i idx rest) c := rfl
    rw [h, add_node_set_current]
    cases add_node (w.t_set i idx rest) node with
    | none => rfl
    | some w1 => exact ih w1

theorem execute_loop_set_current (w : Timer) (c fuel msb time i : Nat) :
    execute_loop (set_current w c) fuel msb time i
      = (execute_loop w fuel msb time i).map (fun r => set_current r c) := by
  induction fuel generalizing msb time i with
  | zero => rfl
  | succ n ih =>
    unfold execute_loop
    have hm : (set_current w c).m_time = w.m_time := rfl
    have ht : (set_current w c).t = w.t := rfl
    simp only [hm, ht]
    split_ifs
    · exact execute_cascade_set_current _ _ _ _ _
    · rfl
    · exact ih _ _ _
    · rfl

theorem execute_set_current (ctx : Context) (fuel : Nat) (w : Timer) (c : Nat) :
    execute ctx fuel (set_current w c)
      = (execute ctx fuel w).map (fun r => (set_current r.1 c, r.2)) := by
  have key := execute_loop_set_current
    { w with near := upd w.near (w.m_time &&& TIME_NEAR_MASK) [], m_time := add32 w.m_time 1 }
    c fuel TIME_NEAR (sar32 (add32 w.m_time 1) TIME_NEAR_SHIFT) 0
  unfold execute
  simp only
  change (match execute_loop (set_current
      { w with near := upd w.near (w.m_time &&& TIME_NEAR_MASK) [], m_time := add32 w.m_time 1 }
      c) fuel TIME_NEAR (sar32 (add32 w.m_time 1) TIME_NEAR_SHIFT) 0 with
    | none => none
    | some w2 => some (w2, execute_near ctx (w.near (w.m_time &&& TIME_NEAR_MASK)))) = _
  rw [key]
  cases execute_loop
    { w with near := upd w.near (w.m_time &&& TIME_NEAR_MASK) [], m_time := add32 w.m_time 1 }
    fuel TIME_NEAR (sar32 (add32 w.m_time 1) TIME_NEAR_SHIFT) 0 with
  | none => rfl
  | some w2 => rfl

theorem updatetime_loop_set_current (ctx : Context) (fuel n : Nat) (w : Timer) (c : Nat) :
    updatetime_loop ctx fuel n (set_current w c)
      = (updatetime_loop ctx fuel n w).map (fun r => (set_current r.1 c, r.2)) := by
  induction n generalizing w with
  | zero => rfl
  | succ n ih =>
    rw [updatetime_loop, updatetime_loop, execute_set_current]
    cases execute ctx fuel w with
    | none => rfl
    | some r =>
      obtain ⟨w1, out⟩ := r
      simp only [Option.map_some']
      rw [ih]
      cases updatetime_loop ctx fuel n w1 with
      | none => rfl
      | some r2 => rfl

theorem readings_succ (c N : Nat) : readings c (N + 1) = (c + 1) :: readings (c + 1) N := by
  unfold readings
  rw [List.range_succ_eq_map, List.map_cons, List.map_map]
  congr 1
  apply List.map_congr_left
  intro j _
  simp only [Function.comp]
  omega

theorem toInt32_small (n : Nat) (h : n < 2 ^ 31) : (toInt32 n).toNat = n := by
  unfold toInt32
  rw [if_pos h]
  simp

theorem sub32_ahead (c n : Nat) (h : c + n < 2 ^ 32) : sub32 (c + n) c = n := by
  unfold sub32
  have : c % U32 = c := Nat.mod_eq_of_lt (by unfold U32; omega)
  rw [this]
  unfold U32
  omega

/-- A call of `updatetime` whose reading is `n < 2^31` ticks ahead runs `execute` `n` times. -/
theorem updatetime_ahead (ctx : Context) (fuel : Nat) (w : Timer) (n : Nat) (h0 : 0 < n)
    (h1 : n < 2 ^ 31) (h2 : w.m_current + n < 2 ^ 32) :
    updatetime ctx fuel w (w.m_current + n)
      = (updatetime_loop ctx fuel n w).map
          (fun r => (set_current r.1 (w.m_current + n), r.2)) := by
  unfold updatetime
  rw [if_pos (by omega), sub32_ahead _ _ h2]
  simp only [toInt32_small _ h1]
  exact updatetime_loop_set_current ctx fuel n w _

theorem updatetime_loop_one (ctx : Context) (fuel : Nat) (w : Timer) :
    updatetime_loop ctx fuel 1 w = execute ctx fuel w := by
  rw [updatetime_loop]
  cases execute ctx fuel w with
  | none => rfl
  | some r =>
    obtain ⟨w1, out⟩ := r
    simp [updatetime_loop]

/-- The calls of `updatetime` with the readings `c + 1, ..., c + N` run `execute` `N` times
in all. -/
theorem updatetime_seq_eq (ctx : Context) (fuel N : Nat) (w : Timer)
    (h : w.m_current + N < 2 ^ 32) :
    (updatetime_seq ctx fuel (readings w.m_current N) w).map (fun r => (r.1, r.2.flatten))
      = (updatetime_loop ctx fuel N w).map
          (fun r => (set_current r.1 (w.m_current + N), r.2)) := by
  induction N generalizing w with
  | zero => rfl
  | succ N ih =>
    rw [readings_succ, updatetime_seq, updatetime_ahead ctx fuel w 1 (by omega) (by omega)
      (by omega), updatetime_loop_one, updatetime_loop]
    cases he : execute ctx fuel w with
    | none => rfl
    | some r =>
      obtain ⟨e, out⟩ := r
      simp only [Option.map_some']
      have hc : (set_current e (w.m_current + 1)).m_current = w.m_current + 1 := rfl
      have ih2 := ih (set_current e (w.m_current + 1)) (by rw [hc]; omega)
      rw [hc, updatetime_loop_set_current] at ih2
      cases hl : updatetime_loop ctx fuel N e with
      | none =>
        rw [hl] at ih2
        cases hs : updatetime_seq ctx fuel (readings (w.m_current + 1) N)
            (set_current e (w.m_current + 1)) with
        | none => rfl
        | some r2 => rw [hs] at ih2; cases ih2
      | some r1 =>
        obtain ⟨w2, out2⟩ := r1
        rw [hl] at ih2
        cases hs : updatetime_seq ctx fuel (readings (w.m_current + 1) N)
            (set_current e (w.m_current + 1)) with
        | none => rw [hs] at ih2; cases ih2
        | some r2 =>
          obtain ⟨w3, outs⟩ := r2
          rw [hs] at ih2
          simp only [Option.map_some', Option.some.injEq, Prod.mk.injEq] at ih2
          simp only [Option.map_some', Option.some.injEq, Prod.mk.injEq, List.flatten_cons]
          obtain ⟨ha, hb⟩ := ih2
          rw [ha, hb]
          refine ⟨?_, rfl⟩
          show set_current w2 (w.m_current + 1 + N) = set_current w2 (w.m_current + (N + 1))
          rw [Nat.add_assoc, Nat.add_comm 1 N]

/-- A reading `2^31` ticks ahead, which `_gettime` never returns: on the freshly constructed
wheel with reading `0`, one call of `updatetime` with the reading `2^31` runs no `execute`
at all (`int diff` is negative) and leaves the tick counter at `0`, while the `2^31` calls
with the readings `1, ..., 2^31` advance the tick counter to `2^31`. -/
theorem updatetime_far_ahead :
    ∃ wa wb outs, updatetime ctx0 4 (construct 0 0 0) (0 + 2 ^ 31) = some (wa, []) ∧
      updatetime_seq ctx0 4 (readings 0 (2 ^ 31)) (construct 0 0 0) = some (wb, outs) ∧
      wa.m_time = 0 ∧ wb.m_time = 2 ^ 31 := by
  obtain ⟨wk, ek, _, hmk, _, _, _⟩ := run_spec ctx0 4 (by decide) (2 ^ 31) (construct 0 0 0)
    (construct_inv 0 0 0) (by decide)
  have hs := updatetime_seq_eq ctx0 4 (2 ^ 31) (construct 0 0 0) (by decide)
  rw [ek] at hs
  have hcur : (construct 0 0 0).m_current = 0 := rfl
  rw [hcur] at hs
  cases hq : updatetime_seq ctx0 4 (readings 0 (2 ^ 31)) (construct 0 0 0) with
  | none => rw [hq] at hs; cases hs
  | some r =>
    obtain ⟨wb, outs⟩ := r
    rw [hq] at hs
    have hwb : wb = set_current wk (0 + 2 ^ 31) := congrArg Prod.fst (Option.some.inj hs)
    refine ⟨set_current (construct 0 0 0) (2 ^ 31), wb, outs, ?_, rfl, rfl, ?_⟩
    · unfold updatetime
      have h1 : sub32 (0 + 2 ^ 31) (construct 0 0 0).m_current = 2 ^ 31 := by
        simp [sub32, construct, U32]
      have h2 : (toInt32 (2 ^ 31)).toNat = 0 := by
        simp [toInt32]
      have h3 : 0 + 2 ^ 31 > (construct 0 0 0).m_current := by
        simp [construct]
      rw [if_pos h3, h1]
      simp only [h2]
      rfl
    · rw [hwb]
      exact hmk.trans (Nat.zero_add _)

/-- C7. A call of `updatetime` whose reading is not ahead of the last observed one pushes
nothing and returns the state unchanged, and so does any number of such calls. -/
theorem updatetime_not_ahead (ctx : Context) (fuel : Nat) (w : Timer) (ct : Nat)
    (h : ct ≤ w.m_current) :
    updatetime ctx fuel w ct = some (w, []) ∧
      ∀ n, updatetime_seq ctx fuel (List.replicate n ct) w = some (w, List.replicate n []) := by
  have h1 : updatetime ctx fuel w ct = some (w, []) := by
    unfold updatetime
    rw [if_neg (by omega)]
  refine ⟨h1, ?_⟩
  intro n
  induction n with
  | zero => rfl
  | succ n ih =>
    rw [List.replicate_succ, updatetime_seq, h1]
    simp only
    rw [ih]
    rfl

/-- C7 (witness). A wheel constructed at reading 7, driven with the reading 5. -/
theorem updatetime_not_ahead_witness :
    5 ≤ (construct 7 0 7).m_current ∧
      updatetime ctx0 4 (construct 7 0 7) 5 = some (construct 7 0 7, []) ∧
      updatetime_seq ctx0 4 (List.replicate 3 5) (construct 7 0 7)
        = some (construct 7 0 7, List.replicate 3 []) :=
  ⟨by decide, (updatetime_not_ahead ctx0 4 (construct 7 0 7) 5 (by decide)).1,
    (updatetime_not_ahead ctx0 4 (construct 7 0 7) 5 (by decide)).2 3⟩

theorem gettime_lt (tv_sec tv_nsec : Nat) (h : tv_nsec < 10 ^ 9) :
    _gettime tv_sec tv_nsec < 2 ^ 31 := by
  unfold _gettime add32
  have h1 : tv_sec &&& 0xffffff = tv_sec % 2 ^ 24 := Nat.and_pow_two_sub_one_eq_mod tv_sec 24
  have h2 : tv_sec % 2 ^ 24 < 2 ^ 24 := Nat.mod_lt _ (by decide)
  have h3 : tv_nsec / 10000000 < 100 := by omega
  have e1 : tv_sec % 2 ^ 24 % U32 = tv_sec % 2 ^ 24 :=
    Nat.mod_eq_of_lt (by unfold U32; omega)
  have e2 : tv_sec % 2 ^ 24 * 100 % U32 = tv_sec % 2 ^ 24 * 100 :=
    Nat.mod_eq_of_lt (by unfold U32; omega)
  have e3 : tv_nsec / 10000000 % U32 = tv_nsec / 10000000 :=
    Nat.mod_eq_of_lt (by unfold U32; omega)
  rw [h1, e1, e2, e3, Nat.mod_eq_of_lt (by unfold U32; omega)]
  omega

/-- C6. Catch-up equivalence: for every wheel state with last observed reading `c` and every
`N ≥ 1`, one `updatetime` call at a clock value whose reading `_gettime()` is `c + N` yields
the same final state and the same sequence of pushes as the `N` calls with the readings
`c + 1, c + 2, ..., c + N`; both sides fail to return in the same cases. -/
theorem catch_up_equivalence (ctx : Context) (fuel : Nat) (w : Timer) (N : Nat) (h0 : 1 ≤ N)
    (tv_sec tv_nsec : Nat) (hns : tv_nsec < 10 ^ 9)
    (hr : _gettime tv_sec tv_nsec = w.m_current + N) :
    updatetime ctx fuel w (_gettime tv_sec tv_nsec)
      = (updatetime_seq ctx fuel (readings w.m_current N) w).map
          (fun r => (r.1, r.2.flatten)) := by
  have hlt := gettime_lt tv_sec tv_nsec hns
  rw [hr] at hlt ⊢
  rw [updatetime_seq_eq ctx fuel N w (by omega)]
  exact updatetime_ahead ctx fuel w N (by omega) (by omega) (by omega)

/-- C6 (witness). A wheel constructed at reading 298, driven at the clock value 3 s, whose
reading is 300. -/
theorem catch_up_equivalence_witness :
    1 ≤ 2 ∧ 0 < 10 ^ 9 ∧ _gettime 3 0 = (construct 298 0 298).m_current + 2 ∧
      updatetime ctx0 4 (construct 298 0 298) (_gettime 3 0)
        = (updatetime_seq ctx0 4 (readings (construct 298 0 298).m_current 2)
            (construct 298 0 298)).map (fun r => (r.1, r.2.flatten)) :=
  ⟨by decide, by decide, by decide,
    catch_up_equivalence ctx0 4 (construct 298 0 298) 2 (by decide) 3 0 (by decide)
      (by decide)⟩

theorem empty_inv (w : Timer) (hm : w.m_time < 2 ^ 32) (he : ∀ s, bucket w s = []) : Inv w := by
  refine ⟨hm, ?_⟩
  intro s n hn
  rw [he s] at hn
  cases hn

theorem empty_queue (w : Timer) (he : ∀ s, bucket w s = []) (E : Nat) : queue w E = [] := by
  unfold queue
  cases place w.m_time E with
  | none => rfl
  | some s => simp [he s]

theorem queue_set_current (w : Timer) (c E : Nat) : queue (set_current w c) E = queue w E :=
  rfl

theorem inv_set_current (w : Timer) (c : Nat) (h : Inv w) : Inv (set_current w c) := h

/-- Effect of the `n` calls of `updatetime` with the readings `c + 1, ..., c + n` on a state
that satisfies the invariant: call `j + 1` pushes the records with expiry `m_time + j`. -/
theorem updatetime_seq_spec (ctx : Context) (fuel : Nat) (hf : 4 ≤ fuel) (n : Nat) (w : Timer)
    (hI : Inv w) (hk : w.m_time + n < 2 ^ 32) (hc : w.m_current + n < 2 ^ 32) :
    ∃ w2, updatetime_seq ctx fuel (readings w.m_current n) w = some (w2,
        (List.range n).map (fun j => execute_near ctx (queue w (w.m_time + j)))) ∧
      Inv w2 ∧ w2.m_time = w.m_time + n ∧ w2.m_current = w.m_current + n ∧
      ∀ E, queue w2 E = if E < w.m_time + n then [] else queue w E := by
  induction n generalizing w with
  | zero =>
    refine ⟨w, rfl, hI, rfl, rfl, ?_⟩
    intro E
    by_cases h : E < w.m_time + 0
    · rw [if_pos h]; exact queue_eq_nil w hI E (by omega)
    · rw [if_neg h]
  | succ n ih =>
    obtain ⟨w1, e1, hI1, hm1, hc1, _, hq1⟩ := execute_spec ctx fuel hf w hI (by omega)
    have hu : updatetime ctx fuel w (w.m_current + 1)
        = some (set_current w1 (w.m_current + 1), execute_near ctx (fired w)) := by
      rw [updatetime_ahead ctx fuel w 1 (by omega) (by omega) (by omega), updatetime_loop_one,
        e1]
      rfl
    have hcur : (set_current w1 (w.m_current + 1)).m_current = w.m_current + 1 := rfl
    have hmt : (set_current w1 (w.m_current + 1)).m_time = w.m_time + 1 := hm1
    obtain ⟨w2, e2, hI2, hm2, hc2, hq2⟩ := ih (set_current w1 (w.m_current + 1))
      (inv_set_current _ _ hI1) (by rw [hmt]; omega) (by rw [hcur]; omega)
    rw [hcur, hmt] at e2
    refine ⟨w2, ?_, hI2, by rw [hm2, hmt]; omega, by rw [hc2, hcur]; omega, ?_⟩
    · rw [readings_succ, updatetime_seq, hu]
      simp only
      rw [e2]
      simp only
      rw [List.range_succ_eq_map, List.map_cons, List.map_map, fired_eq_queue w hI]
      have hfun : (fun j => execute_near ctx
            (queue (set_current w1 (w.m_current + 1)) (w.m_time + 1 + j))) =
          ((fun j => execute_near ctx (queue w (w.m_time + j))) ∘ Nat.succ) := by
        funext j
        simp only [Function.comp]
        rw [queue_set_current, hq1, if_neg (by omega)]
        congr 2
        omega
      simp only [hfun, Nat.add_zero]
    · intro E
      rw [hq2, hmt, queue_set_current, hq1]
      by_cases h1 : E < w.m_time + 1 + n
      · rw [if_pos h1, if_pos (by omega)]
      · rw [if_neg h1, if_neg (by omega), if_neg (by omega)]

/-- C2 (counterexample). On the freshly constructed wheel, after `timeout(5, 3, 42)` the
three `updatetime` calls with the readings `1, 2, 3` return and push nothing: the third
call does not deliver the record. -/
theorem three_calls_fire_nothing :
    ∃ w1 w2, timeout ctx0 (construct 0 0 0) 5 3 42 = some (w1, 42, []) ∧
      updatetime_seq ctx0 4 [1, 2, 3] w1 = some (w2, [[], [], []]) :=
  ⟨_, _, rfl, rfl⟩

/-- C2 (amended). For every delay `d ≥ 1`: after `timeout(handle, d, session)` on a wheel with
no pending record, the `d + 1` successive `updatetime` calls whose readings advance by one
tick each push nothing on the calls `1 .. d` and push exactly the armed record (`handle`,
timeout message with `session`) on call `d + 1`. -/
theorem single_timer_fires_after_d_plus_one_calls (ctx : Context) (fuel : Nat) (hf : 4 ≤ fuel)
    (w : Timer) (hempty : ∀ s, bucket w s = []) (handle d : Nat) (session : Int) (hd : 1 ≤ d)
    (hT : w.m_time + d + 1 < 2 ^ 32) (hc : w.m_current + d + 1 < 2 ^ 32) :
    ∃ w1 w2, timeout ctx w handle d session = some (w1, session, []) ∧
      updatetime_seq ctx fuel (readings w.m_current (d + 1)) w1
        = some (w2, List.replicate d [] ++ [[(handle, timeout_message ctx session)]]) := by
  have hI := empty_inv w (by omega) hempty
  obtain ⟨w1, s, e1, hI1, hm1, hc1, _, _, _, hq1⟩ :=
    timeout_spec ctx w hI handle d session (by omega) (by omega)
  obtain ⟨w2, e2, _⟩ := updatetime_seq_spec ctx fuel hf (d + 1) w1 hI1 (by rw [hm1]; omega)
    (by rw [hc1]; omega)
  refine ⟨w1, w2, e1, ?_⟩
  have hA : (List.range d).map (fun j => execute_near ctx (queue w1 (w1.m_time + j)))
      = List.replicate d [] := by
    have := List.map_eq_replicate_iff (l := List.range d)
      (f := fun j => execute_near ctx (queue w1 (w1.m_time + j))) (b := [])
    rw [List.length_range] at this
    rw [this]
    intro j hj
    rw [List.mem_range] at hj
    rw [hq1, hm1, if_neg (by omega), empty_queue w hempty]
    rfl
  have hB : execute_near ctx (queue w1 (w1.m_time + d))
      = [(handle, timeout_message ctx session)] := by
    rw [hq1, hm1, if_pos rfl, empty_queue w hempty]
    rfl
  rw [← hc1, e2, List.range_succ, List.map_append, List.map_singleton, hA, hB]

/-- C2 (witness). The fresh wheel, handle 5, delay 3, session 42: four calls. -/
theorem single_timer_fires_after_d_plus_one_calls_witness :
    4 ≤ 4 ∧ (∀ s, bucket (construct 0 0 0) s = []) ∧ 1 ≤ 3 ∧
      (construct 0 0 0).m_time + 3 + 1 < 2 ^ 32 ∧
      (construct 0 0 0).m_current + 3 + 1 < 2 ^ 32 ∧
      ∃ w1 w2, timeout ctx0 (construct 0 0 0) 5 3 42 = some (w1, 42, []) ∧
        updatetime_seq ctx0 4 (readings (construct 0 0 0).m_current (3 + 1)) w1
          = some (w2, List.replicate 3 [] ++ [[(5, timeout_message ctx0 42)]]) :=
  ⟨by decide, fun s => by cases s <;> rfl, by decide, by decide, by decide,
    single_timer_fires_after_d_plus_one_calls ctx0 4 (by decide) (construct 0 0 0)
      (fun s => by cases s <;> rfl) 5 3 42 (by decide) (by decide) (by decide)⟩

/-- C3 (counterexample). With the session id `-1` and a dispatcher whose `push` succeeds,
`timeout(7, 0, -1)` returns `-1`, the value that reports an unreachable target. -/
theorem timeout_zero_session_minus_one :
    timeout ctx0 (construct 0 0 0) 7 0 (-1)
        = some (construct 0 0 0, -1, [(7, timeout_message ctx0 (-1))]) ∧
      ctx0.push 7 (timeout_message ctx0 (-1)) = 0 :=
  ⟨rfl, rfl⟩

/-- C3 (amended). For every wheel state, handle and session, `timeout(handle, 0, session)`
leaves the state unchanged, calls `push` exactly once, with `handle` and the timeout message
carrying `session`, and returns `-1` if that push reports failure and `session` otherwise;
so the result is `-1` exactly when the push fails or `session` itself is `-1`. -/
theorem timeout_zero (ctx : Context) (w : Timer) (handle : Nat) (session : Int) :
    timeout ctx w handle 0 session
        = some (w, if ctx.push handle (timeout_message ctx session) ≠ 0 then -1 else session,
            [(handle, timeout_message ctx session)]) ∧
      ((if ctx.push handle (timeout_message ctx session) ≠ 0 then -1 else session) = -1 ↔
        (ctx.push handle (timeout_message ctx session) ≠ 0 ∨ session = -1)) ∧
      timeout_message ctx session
        = ⟨0, session, none, ctx.PTYPE_RESPONSE <<< ctx.HANDLE_REMOTE_SHIFT⟩ := by
  refine ⟨?_, ?_, rfl⟩
  · unfold timeout
    rw [if_pos rfl]
    simp only
    split_ifs <;> rfl
  · split_ifs with h
    · simp [h]
    · simp [h]

theorem execute_near_eq_map (ctx : Context) (l : List timer_node) :
    execute_near ctx l = l.map (fun n => (n.event.handle,
      (⟨0, n.event.session, none, ctx.PTYPE_RESPONSE <<< ctx.HANDLE_REMOTE_SHIFT⟩ :
        skynet_message))) := by
  induction l with
  | nil => rfl
  | cons a l ih =>
    rw [execute_near, List.map_cons, ih]
    rfl

/-- C8 (counterexample). On the empty wheel with tick counter `2^32 - 256`, the call
`timeout(7, 256, 9)` computes the expiry `0`, for which `add_node` selects level 3 with
index `-1`: no record is appended to a bucket of the wheel. -/
theorem timeout_wrapping_expiry_has_no_bucket :
    timeout ctx0 (wheel_at (2 ^ 32 - 256)) 7 256 9 = none ∧
      place (2 ^ 32 - 256) 0 = none :=
  ⟨rfl, rfl⟩

/-- C8 (amended). For every wheel state and every delay `d > 0` whose expiry
`m_time + d` stays below `2^32`, `timeout(handle, d, session)` returns `session`, pushes
nothing, and changes the wheel only by appending the new record, with expiry `m_time + d`
and the given handle and session, at the tail of the bucket that the placement rule gives;
every other bucket, the records already in that bucket and their order, and both tick
counters are unchanged. -/
theorem timeout_appends_one_record (ctx : Context) (w : Timer) (handle d : Nat)
    (session : Int) (hd : 0 < d) (h : w.m_time + d < 2 ^ 32) :
    ∃ w1 s, timeout ctx w handle d session = some (w1, session, []) ∧
      place w.m_time (w.m_time + d) = some s ∧
      (∀ x, bucket w1 x = if x = s then bucket w s ++ [⟨w.m_time + d, ⟨handle, session⟩⟩]
        else bucket w x) ∧
      w1.m_time = w.m_time ∧ w1.m_current = w.m_current ∧
      w1.m_starttime = w.m_starttime := by
  obtain ⟨s, hs⟩ := place_some w.m_time (w.m_time + d) (by omega) h
  refine ⟨add_tail w s ⟨w.m_time + d, ⟨handle, session⟩⟩, s, ?_, hs, ?_, ?_, ?_, ?_⟩
  · exact timeout_eq_add_tail ctx w handle d session s hd h hs
  · intro x
    exact bucket_add_tail w s x _
  · exact add_tail_m_time w s _
  · exact add_tail_m_current w s _
  · exact add_tail_m_starttime w s _

/-- C8 (witness). A wheel constructed at reading 7, handle 5, delay 300, session 42. -/
theorem timeout_appends_one_record_witness :
    0 < 300 ∧ (construct 7 0 7).m_time + 300 < 2 ^ 32 ∧
      ∃ w1 s, timeout ctx0 (construct 7 0 7) 5 300 42 = some (w1, 42, []) ∧
        place (construct 7 0 7).m_time ((construct 7 0 7).m_time + 300) = some s ∧
        (∀ x, bucket w1 x = if x = s then bucket (construct 7 0 7) s ++
            [⟨(construct 7 0 7).m_time + 300, ⟨5, 42⟩⟩]
          else bucket (construct 7 0 7) x) ∧
        w1.m_time = (construct 7 0 7).m_time ∧ w1.m_current = (construct 7 0 7).m_current ∧
        w1.m_starttime = (construct 7 0 7).m_starttime :=
  ⟨by decide, by decide,
    timeout_appends_one_record ctx0 (construct 7 0 7) 5 300 42 (by decide) (by decide)⟩

theorem place_valid (C E : Nat) (s : Slot) (h : place C E = some s) : s.valid := by
  cases s with
  | near idx =>
    have := (place_near_iff _ _ _).mp h
    show idx < 256
    omega
  | level i idx => exact place_level_bound _ _ _ _ h

theorem add_node_fields (w w1 : Timer) (node : timer_node) (h : add_node w node = some w1) :
    w1.m_time = w.m_time ∧ w1.m_current = w.m_current ∧ w1.m_starttime = w.m_starttime := by
  rw [add_node_eq] at h
  cases hp : place w.m_time node.expire with
  | none => rw [hp] at h; cases h
  | some s =>
    rw [hp] at h
    simp only [Option.map_some', Option.some.injEq] at h
    subst h
    simp

theorem execute_cascade_fields (i idx : Nat) (L : List timer_node) (w w1 : Timer)
    (h : execute_cascade i idx L w = some w1) :
    w1.m_time = w.m_time ∧ w1.m_current = w.m_current ∧ w1.m_starttime = w.m_starttime := by
  induction L generalizing w with
  | nil =>
    simp only [execute_cascade, Option.some.injEq] at h
    subst h
    exact ⟨rfl, rfl, rfl⟩
  | cons node rest ih =>
    rw [execute_cascade] at h
    cases ha : add_node (w.t_set i idx rest) node with
    | none => rw [ha] at h; cases h
    | some w2 =>
      rw [ha] at h
      have h1 := add_node_fields _ _ _ ha
      have h2 := ih w2 h
      exact ⟨h2.1.trans h1.1, h2.2.1.trans h1.2.1, h2.2.2.trans h1.2.2⟩

theorem execute_loop_fields (w w1 : Timer) (fuel msb time i : Nat)
    (h : execute_loop w fuel msb time i = some w1) :
    w1.m_time = w.m_time ∧ w1.m_current = w.m_current ∧ w1.m_starttime = w.m_starttime := by
  induction fuel generalizing msb time i with
  | zero => simp [execute_loop] at h
  | succ n ih =>
    unfold execute_loop at h
    simp only at h
    split_ifs at h
    · exact execute_cascade_fields _ _ _ _ _ h
    · exact ih _ _ _ h
    · cases h
      exact ⟨rfl, rfl, rfl⟩

/-- A call of `execute` that returns has advanced the tick counter by one, without wrapping,
and has left `m_current` alone. -/
theorem execute_fields (ctx : Context) (fuel : Nat) (w w1 : Timer) (out : List PushCall)
    (hm : w.m_time < 2 ^ 32) (h : execute ctx fuel w = some (w1, out)) :
    w1.m_time = w.m_time + 1 ∧ w1.m_time < 2 ^ 32 ∧ w1.m_current = w.m_current ∧
      out = execute_near ctx (fired w) := by
  have hlt : w.m_time + 1 < 2 ^ 32 := by
    by_contra hcon
    have : w.m_time = 2 ^ 32 - 1 := by omega
    rw [execute_wrap ctx fuel w this] at h
    cases h
  unfold execute at h
  simp only at h
  split at h
  · cases h
  · next w2 hl =>
    simp only [Option.some.injEq, Prod.mk.injEq] at h
    obtain ⟨h1, h2⟩ := h
    subst h1
    have hf := execute_loop_fields _ _ _ _ _ _ hl
    simp only [add32_one _ hlt] at hf
    exact ⟨hf.1, by rw [hf.1]; exact hlt, hf.2.1, h2.symm⟩

theorem updatetime_loop_fields (ctx : Context) (fuel n : Nat) (w w1 : Timer)
    (out : List PushCall) (hm : w.m_time < 2 ^ 32)
    (h : updatetime_loop ctx fuel n w = some (w1, out)) :
    w1.m_time = w.m_time + n ∧ w1.m_time < 2 ^ 32 ∧ w1.m_current = w.m_current := by
  induction n generalizing w out with
  | zero =>
    simp only [updatetime_loop, Option.some.injEq, Prod.mk.injEq] at h
    obtain ⟨h1, _⟩ := h
    subst h1
    exact ⟨rfl, hm, rfl⟩
  | succ n ih =>
    rw [updatetime_loop] at h
    cases he : execute ctx fuel w with
    | none => rw [he] at h; cases h
    | some r =>
      obtain ⟨w2, o2⟩ := r
      rw [he] at h
      simp only at h
      obtain ⟨e1, e2, e3, _⟩ := execute_fields ctx fuel w w2 o2 hm he
      cases hl : updatetime_loop ctx fuel n w2 with
      | none => rw [hl] at h; cases h
      | some r2 =>
        obtain ⟨w3, o3⟩ := r2
        rw [hl] at h
        simp only [Option.some.injEq, Prod.mk.injEq] at h
        obtain ⟨h1, _⟩ := h
        subst h1
        obtain ⟨f1, f2, f3⟩ := ih w2 o3 e2 hl
        exact ⟨by omega, f2, f3.trans e3⟩

theorem timeout_fields (ctx : Context) (w w1 : Timer) (handle time : Nat) (session r : Int)
    (out : List PushCall) (h : timeout ctx w handle time session = some (w1, r, out)) :
    w1.m_time = w.m_time ∧ w1.m_current = w.m_current := by
  by_cases h0 : time = 0
  · subst h0
    unfold timeout at h
    simp only [if_true] at h
    split_ifs at h <;> cases h <;> exact ⟨rfl, rfl⟩
  · unfold timeout at h
    rw [if_neg h0] at h
    simp only at h
    split at h
    · cases h
    · next w2 ha =>
      cases h
      have := add_node_fields _ _ _ ha
      exact ⟨this.1, this.2.1⟩

theorem api_step_offset (ctx : Context) (c0 : Nat) (w w1 : Timer) (hs : ApiStep ctx w w1)
    (h : w.m_current = c0 + w.m_time ∧ w.m_current < 2 ^ 31) :
    w1.m_current = c0 + w1.m_time ∧ w1.m_current < 2 ^ 31 := by
  cases hs with
  | timeout handle time session r out ht =>
    obtain ⟨h1, h2⟩ := timeout_fields ctx w w1 handle time session r out ht
    rw [h1, h2]
    exact h
  | updatetime fuel tv_sec tv_nsec out hns hu =>
    have hlt := gettime_lt tv_sec tv_nsec hns
    by_cases hc : _gettime tv_sec tv_nsec > w.m_current
    · obtain ⟨n, hn⟩ : ∃ n, _gettime tv_sec tv_nsec = w.m_current + n :=
        ⟨_gettime tv_sec tv_nsec - w.m_current, by omega⟩
      rw [hn] at hu hlt hc
      rw [updatetime_ahead ctx fuel w n (by omega) (by omega) (by omega)] at hu
      cases hl : updatetime_loop ctx fuel n w with
      | none => rw [hl] at hu; cases hu
      | some r2 =>
        obtain ⟨w2, o2⟩ := r2
        rw [hl] at hu
        simp only [Option.map_some', Option.some.injEq, Prod.mk.injEq] at hu
        obtain ⟨hu1, _⟩ := hu
        subst hu1
        obtain ⟨f1, _, _⟩ := updatetime_loop_fields ctx fuel n w w2 o2 (by omega) hl
        have e1 : (set_current w2 (w.m_current + n)).m_current = w.m_current + n := rfl
        have e2 : (set_current w2 (w.m_current + n)).m_time = w2.m_time := rfl
        rw [e1, e2]
        omega
    · unfold updatetime at hu
      rw [if_neg hc] at hu
      cases hu
      exact h

/-- C10 (counterexample). On the wheel constructed at clock reading `7`, `gettime()` returns
`7` while the internal tick counter is `0`. -/
theorem gettime_is_not_the_tick_counter :
    gettime (construct 7 0 7) = 7 ∧ (construct 7 0 7).m_time = 0 ∧
      gettime (construct 7 0 7) ≠ (construct 7 0 7).m_time :=
  ⟨rfl, rfl, by decide⟩

/-- C10 (amended). `gettime()` returns `m_current`, the last observed clock reading.  In every
state reached from construction at the clock reading `c0` by calls of `timeout` and
`updatetime`, it equals `c0` plus the internal tick counter `m_time`: the counter that
advances by exactly one per `execute` call that returns and to which `timeout` adds the
delay to compute the expiry of a record. -/
theorem gettime_is_reading (ctx : Context) (tv_sec tv_nsec sec ct2 : Nat)
    (hns : tv_nsec < 10 ^ 9) (w : Timer)
    (hw : Relation.ReflTransGen (ApiStep ctx) (construct (_gettime tv_sec tv_nsec) sec ct2) w) :
    gettime w = w.m_current ∧ gettime w = _gettime tv_sec tv_nsec + w.m_time ∧
      (∀ fuel w1 out, execute ctx fuel w = some (w1, out) → w1.m_time = w.m_time + 1) ∧
      (∀ handle d session w1 r out, 0 < d → w.m_time + d < 2 ^ 32 →
        timeout ctx w handle d session = some (w1, r, out) →
        ∃ s, bucket w1 s = bucket w s ++ [⟨w.m_time + d, ⟨handle, session⟩⟩]) := by
  have hinv : w.m_current = _gettime tv_sec tv_nsec + w.m_time ∧ w.m_current < 2 ^ 31 := by
    induction hw with
    | refl => exact ⟨rfl, gettime_lt tv_sec tv_nsec hns⟩
    | tail _ hs ih => exact api_step_offset ctx _ _ _ hs ih
  refine ⟨rfl, hinv.1, ?_, ?_⟩
  · intro fuel w1 out he
    exact (execute_fields ctx fuel w w1 out (by omega) he).1
  · intro handle d session w1 r out hd hlt ht
    obtain ⟨s, hs⟩ := place_some w.m_time (w.m_time + d) (by omega) hlt
    rw [timeout_eq_add_tail ctx w handle d session s hd hlt hs] at ht
    cases ht
    exact ⟨s, by rw [bucket_add_tail, if_pos rfl]⟩

/-- C10 (witness). The wheel constructed at the clock value 3 s, reading 300. -/
theorem gettime_is_reading_witness :
    0 < 10 ^ 9 ∧
      Relation.ReflTransGen (ApiStep ctx0) (construct (_gettime 3 0) 0 300)
        (construct (_gettime 3 0) 0 300) ∧
      gettime (construct (_gettime 3 0) 0 300) = (construct (_gettime 3 0) 0 300).m_current ∧
      gettime (construct (_gettime 3 0) 0 300)
        = _gettime 3 0 + (construct (_gettime 3 0) 0 300).m_time :=
  ⟨by decide, Relation.ReflTransGen.refl,
    (gettime_is_reading ctx0 3 0 0 300 (by decide) _ Relation.ReflTransGen.refl).1,
    (gettime_is_reading ctx0 3 0 0 300 (by decide) _ Relation.ReflTransGen.refl).2.1⟩

/-- A record is in the wheel when it is in one of the buckets of the arrays. -/
theorem mem_all_nodes (w : Timer) (n : timer_node) :
    n ∈ all_nodes w ↔ ∃ s, s.valid ∧ n ∈ bucket w s := by
  unfold all_nodes
  simp only [List.mem_append, List.mem_flatMap, List.mem_range]
  constructor
  · rintro (⟨j, hj, hn⟩ | ⟨i, hi, j, hj, hn⟩)
    · exact ⟨Slot.near j, hj, hn⟩
    · exact ⟨Slot.level i j, ⟨hi, hj⟩, hn⟩
  · rintro ⟨s, hv, hn⟩
    cases s with
    | near j => exact Or.inl ⟨j, hv, hn⟩
    | level i j => exact Or.inr ⟨i, hv.1, j, hv.2, hn⟩

/-- C13. `add_node` implements the placement rule: for every record with expiry `E` and
every wheel with tick counter `C`, the record is appended to `near[E & 0xFF]` when `E` and
`C` agree on their upper 24 bits, and otherwise to bucket `((E >> (8 + 6*i)) & 0x3F) - 1` of
level `i`, the smallest of 0, 1, 2 for which `E` and `C` agree on all bits at and above bit
`14 + 6*i`, and 3 when there is none.  The index `-1` lies outside the array: the embedding
has no result there. -/
theorem add_node_implements_placement_rule (w : Timer) (node : timer_node) :
    add_node w node =
      match placement_rule node.expire w.m_time with
      | Placement.near idx => some (w.near_add_tail idx node)
      | Placement.level i k =>
        if 0 ≤ k then some (w.t_add_tail i k.toNat node) else none := by
  rw [add_node_eq]
  unfold place placement_rule level_slot
  have s8 : ∀ x : Nat, x >>> 8 = x / 256 := fun x => Nat.shiftRight_eq_div_pow x 8
  have s14 : ∀ x : Nat, x >>> 14 = x / 16384 := fun x => Nat.shiftRight_eq_div_pow x 14
  have s20 : ∀ x : Nat, x >>> 20 = x / 1048576 := fun x => Nat.shiftRight_eq_div_pow x 20
  have s26 : ∀ x : Nat, x >>> 26 = x / 67108864 := fun x => Nat.shiftRight_eq_div_pow x 26
  simp only [s8, s14, s20, s26, and_255]
  by_cases h0 : node.expire / 256 = w.m_time / 256
  · simp only [h0, if_true, Option.map_some']
    rfl
  · simp only [h0, if_false]
    by_cases h1 : node.expire / 16384 = w.m_time / 16384
    · simp only [h1, if_true, Nat.mul_zero, Nat.add_zero, s8, and_63]
      by_cases hd : node.expire / 256 % 64 = 0
      · simp [hd]
      · have : (0 : Int) ≤ ((node.expire / 256 % 64 : Nat) : Int) - 1 := by omega
        have e : (((node.expire / 256 % 64 : Nat) : Int) - 1).toNat
            = node.expire / 256 % 64 - 1 := by omega
        simp only [hd, if_false, this, if_true, Option.map_some', e]
        rfl
    · simp only [h1, if_false]
      by_cases h2 : node.expire / 1048576 = w.m_time / 1048576
      · simp only [h2, if_true, Nat.mul_one, show 8 + 6 = 14 from rfl, s14, and_63]
        by_cases hd : node.expire / 16384 % 64 = 0
        · simp [hd]
        · have : (0 : Int) ≤ ((node.expire / 16384 % 64 : Nat) : Int) - 1 := by omega
          have e : (((node.expire / 16384 % 64 : Nat) : Int) - 1).toNat
              = node.expire / 16384 % 64 - 1 := by omega
          simp only [hd, if_false, this, if_true, Option.map_some', e]
          rfl
      · simp only [h2, if_false]
        by_cases h3 : node.expire / 67108864 = w.m_time / 67108864
        · simp only [h3, if_true, show 8 + 6 * 2 = 20 from rfl, s20, and_63]
          by_cases hd : node.expire / 1048576 % 64 = 0
          · simp [hd]
          · have : (0 : Int) ≤ ((node.expire / 1048576 % 64 : Nat) : Int) - 1 := by omega
            have e : (((node.expire / 1048576 % 64 : Nat) : Int) - 1).toNat
                = node.expire / 1048576 % 64 - 1 := by omega
            simp only [hd, if_false, this, if_true, Option.map_some', e]
            rfl
        · simp only [h3, if_false, show 8 + 6 * 3 = 26 from rfl, s26, and_63]
          by_cases hd : node.expire / 67108864 % 64 = 0
          · simp [hd]
          · have : (0 : Int) ≤ ((node.expire / 67108864 % 64 : Nat) : Int) - 1 := by omega
            have e : (((node.expire / 67108864 % 64 : Nat) : Int) - 1).toNat
                = node.expire / 67108864 % 64 - 1 := by omega
            simp only [hd, if_false, this, if_true, Option.map_some', e]
            rfl

/-- C14. For a tick counter `C` and an expiry `E` with `C < E < 2^32` that `add_node` does
not place in `near`: with `i` the level the loop of `add_node` chooses, the 6-bit digit
`(E >> (8 + 6*i)) & 0x3F` is at least 1, so the index `digit - 1` lies in `0..62`, inside
`t[4][63]`, and the record is appended to `t[i][digit - 1]`. -/
theorem level_digit_is_positive (w : Timer) (node : timer_node)
    (hC : w.m_time < node.expire) (hE : node.expire < 2 ^ 32)
    (hn : (node.expire ||| TIME_NEAR_MASK) ≠ (w.m_time ||| TIME_NEAR_MASK)) :
    add_node_loop node.expire w.m_time 3 0 (shl32 TIME_NEAR TIME_LEVEL_SHIFT) ≤ 3 ∧
    1 ≤ sar32 node.expire (TIME_NEAR_SHIFT +
        add_node_loop node.expire w.m_time 3 0 (shl32 TIME_NEAR TIME_LEVEL_SHIFT) *
          TIME_LEVEL_SHIFT) &&& TIME_LEVEL_MASK ∧
    (sar32 node.expire (TIME_NEAR_SHIFT +
        add_node_loop node.expire w.m_time 3 0 (shl32 TIME_NEAR TIME_LEVEL_SHIFT) *
          TIME_LEVEL_SHIFT) &&& TIME_LEVEL_MASK) - 1 ≤ 62 ∧
    add_node w node = some (w.t_add_tail
      (add_node_loop node.expire w.m_time 3 0 (shl32 TIME_NEAR TIME_LEVEL_SHIFT))
      ((sar32 node.expire (TIME_NEAR_SHIFT +
        add_node_loop node.expire w.m_time 3 0 (shl32 TIME_NEAR TIME_LEVEL_SHIFT) *
          TIME_LEVEL_SHIFT) &&& TIME_LEVEL_MASK) - 1) node) := by
  have hi : add_node_loop node.expire w.m_time 3 0 (shl32 TIME_NEAR TIME_LEVEL_SHIFT) ≤ 3 := by
    rw [add_node_loop_eq]
    split_ifs <;> omega
  have hm : TIME_NEAR_MASK = 255 := by decide
  have hl : TIME_LEVEL_MASK = 63 := by decide
  have hn2 : ¬ node.expire / 256 = w.m_time / 256 :=
    fun h => hn (by rw [hm]; exact (mask_near _ _).mpr h)
  have hd : 1 ≤ sar32 node.expire (TIME_NEAR_SHIFT +
        add_node_loop node.expire w.m_time 3 0 (shl32 TIME_NEAR TIME_LEVEL_SHIFT) *
          TIME_LEVEL_SHIFT) &&& TIME_LEVEL_MASK := by
    rw [add_node_loop_eq, hl]
    split_ifs with h1 h2 h3
    · rw [show TIME_NEAR_SHIFT + 0 * TIME_LEVEL_SHIFT = 8 from rfl, sar32_digit _ _ (by omega)]
      omega
    · rw [show TIME_NEAR_SHIFT + 1 * TIME_LEVEL_SHIFT = 14 from rfl, sar32_digit _ _ (by omega)]
      omega
    · rw [show TIME_NEAR_SHIFT + 2 * TIME_LEVEL_SHIFT = 20 from rfl, sar32_digit _ _ (by omega)]
      omega
    · rw [show TIME_NEAR_SHIFT + 3 * TIME_LEVEL_SHIFT = 26 from rfl, sar32_digit _ _ (by omega)]
      omega
  have hd2 : (sar32 node.expire (TIME_NEAR_SHIFT +
        add_node_loop node.expire w.m_time 3 0 (shl32 TIME_NEAR TIME_LEVEL_SHIFT) *
          TIME_LEVEL_SHIFT) &&& TIME_LEVEL_MASK) - 1 ≤ 62 := by
    rw [hl, and_63]
    omega
  refine ⟨hi, hd, hd2, ?_⟩
  unfold add_node
  simp only
  rw [if_neg hn, if_neg (by omega)]

/-- C14 (witness). Tick counter 0 and expiry 300: level 0, digit 1, bucket `t[0][0]`. -/
theorem level_digit_is_positive_witness :
    add_node_loop 300 0 3 0 (shl32 TIME_NEAR TIME_LEVEL_SHIFT) = 0 ∧
    sar32 300 (TIME_NEAR_SHIFT + 0 * TIME_LEVEL_SHIFT) &&& TIME_LEVEL_MASK = 1 ∧
    add_node (construct 0 0 0) ⟨300, ⟨5, 42⟩⟩
      = some ((construct 0 0 0).t_add_tail 0 0 ⟨300, ⟨5, 42⟩⟩) :=
  ⟨by decide, by decide,
    (level_digit_is_positive (construct 0 0 0) ⟨300, ⟨5, 42⟩⟩ (by decide) (by decide)
      (by decide)).2.2.2⟩

/-- With the counter at `0` the cascade loop passes from level index `i` to level index
`i + k`, for every `k`: the condition `(m_time & (msb-1)) == 0` holds for every `msb` and the
digit examined is `0` at every level. -/
theorem execute_loop_zero_climbs (w : Timer) (h : w.m_time = 0) (k fuel msb i : Nat) :
    ∃ msb2, execute_loop w (k + fuel) msb 0 i = execute_loop w fuel msb2 0 (i + k) := by
  induction k generalizing msb i with
  | zero => exact ⟨msb, by rw [Nat.zero_add]; rfl⟩
  | succ k ih =>
    obtain ⟨msb2, h2⟩ := ih (shl32 msb TIME_LEVEL_SHIFT) (i + 1)
    refine ⟨msb2, ?_⟩
    have e : k + 1 + fuel = (k + fuel) + 1 := by omega
    have e2 : i + (k + 1) = i + 1 + k := by omega
    rw [e, e2, execute_loop, h, ← h2]
    have hs : sar32 0 TIME_LEVEL_SHIFT = 0 := by decide
    simp [hs]

/-- The result of `execute` in a state whose counter does not wrap: the loop exits at its
first test, or cascades the bucket given by `cascade_slot`. -/
theorem execute_eq (ctx : Context) (fuel : Nat) (hf : 4 ≤ fuel) (w : Timer)
    (hC : w.m_time + 1 < 2 ^ 32) :
    execute ctx fuel w =
      (if (w.m_time + 1) % 256 ≠ 0 then
          some { w with near := upd w.near (w.m_time &&& TIME_NEAR_MASK) [],
                        m_time := w.m_time + 1 }
        else match cascade_slot (w.m_time + 1) with
          | some (Slot.level i idx) =>
            execute_cascade i idx (w.t i idx)
              { w with near := upd w.near (w.m_time &&& TIME_NEAR_MASK) [],
                       m_time := w.m_time + 1 }
          | _ => none).map (fun w2 => (w2, execute_near ctx (fired w))) := by
  unfold execute
  simp only [add32_one _ hC]
  rw [execute_loop_eq2 _ fuel hf hC]
  simp only [fired]
  split_ifs with h
  · rfl
  · cases hc : cascade_slot (w.m_time + 1) with
    | none => rfl
    | some s =>
      cases s with
      | near j => rfl
      | level i idx =>
        simp only
        cases execute_cascade i idx (w.t i idx) _ <;> rfl

theorem cascade_slot_level (m : Nat) (s : Slot) (h : cascade_slot m = some s) :
    ∃ i idx, s = Slot.level i idx ∧ i < 4 ∧ idx < 63 ∧ m % 256 = 0 := by
  unfold cascade_slot at h
  split_ifs at h <;> simp only [Option.some.injEq, reduceCtorEq] at h <;> subst h
  · exact ⟨0, _, rfl, by omega, by omega, by omega⟩
  · exact ⟨1, _, rfl, by omega, by omega, by omega⟩
  · exact ⟨2, _, rfl, by omega, by omega, by omega⟩
  · exact ⟨3, _, rfl, by omega, by omega, by omega⟩

/-- C16 (counterexample). On the empty wheel whose tick counter is `2^32 - 1`, `execute`
does not return, whatever the dispatcher and however many evaluations of the loop condition
are allowed: the increment wraps the counter to `0`, and from then on the cascade loop goes
from level index `0` to level index `k` for every `k`, also beyond `3`. -/
theorem execute_does_not_terminate_at_wrap :
    (∀ ctx fuel, execute ctx fuel (wheel_at (2 ^ 32 - 1)) = none) ∧
      add32 (wheel_at (2 ^ 32 - 1)).m_time 1 = 0 ∧
      ∀ k fuel, ∃ msb,
        execute_loop
          { wheel_at (2 ^ 32 - 1) with
            near := upd (wheel_at (2 ^ 32 - 1)).near
              ((wheel_at (2 ^ 32 - 1)).m_time &&& TIME_NEAR_MASK) [],
            m_time := add32 (wheel_at (2 ^ 32 - 1)).m_time 1 }
          (k + fuel) TIME_NEAR
          (sar32 (add32 (wheel_at (2 ^ 32 - 1)).m_time 1) TIME_NEAR_SHIFT) 0
        = execute_loop
          { wheel_at (2 ^ 32 - 1) with
            near := upd (wheel_at (2 ^ 32 - 1)).near
              ((wheel_at (2 ^ 32 - 1)).m_time &&& TIME_NEAR_MASK) [],
            m_time := add32 (wheel_at (2 ^ 32 - 1)).m_time 1 }
          fuel msb 0 k := by
  have h0 : add32 (wheel_at (2 ^ 32 - 1)).m_time 1 = 0 := by decide
  refine ⟨fun ctx fuel => execute_wrap ctx fuel _ rfl, h0, ?_⟩
  intro k fuel
  have hs : sar32 (add32 (wheel_at (2 ^ 32 - 1)).m_time 1) TIME_NEAR_SHIFT = 0 := by decide
  rw [hs]
  obtain ⟨msb, hm⟩ := execute_loop_zero_climbs
    { wheel_at (2 ^ 32 - 1) with
      near := upd (wheel_at (2 ^ 32 - 1)).near
        ((wheel_at (2 ^ 32 - 1)).m_time &&& TIME_NEAR_MASK) [],
      m_time := add32 (wheel_at (2 ^ 32 - 1)).m_time 1 } h0 k fuel TIME_NEAR 0
  rw [Nat.zero_add] at hm
  exact ⟨msb, hm⟩

/-- C16 (amended). In every wheel state whose tick counter is below `2^32 - 1`, the cascade
loop of `execute` stops within four evaluations of its condition: the result with any
allowance of at least four is the result with four.  The loop exits at its first test when
the low 8 bits of the incremented counter are nonzero, and otherwise cascades one bucket
`t[i][idx]` with `i ≤ 3` and `idx ≤ 62`, a walk over the finite content of that bucket.  In
every state that satisfies the placement invariant, in particular every reachable one,
`execute` returns. -/
theorem execute_terminates_without_wrap (ctx : Context) (fuel : Nat) (hf : 4 ≤ fuel)
    (w : Timer) (hC : w.m_time + 1 < 2 ^ 32) :
    execute ctx fuel w = execute ctx 4 w ∧
    execute ctx fuel w =
      (if (w.m_time + 1) % 256 ≠ 0 then
          some { w with near := upd w.near (w.m_time &&& TIME_NEAR_MASK) [],
                        m_time := w.m_time + 1 }
        else match cascade_slot (w.m_time + 1) with
          | some (Slot.level i idx) =>
            execute_cascade i idx (w.t i idx)
              { w with near := upd w.near (w.m_time &&& TIME_NEAR_MASK) [],
                       m_time := w.m_time + 1 }
          | _ => none).map (fun w2 => (w2, execute_near ctx (fired w))) ∧
    ((w.m_time + 1) % 256 = 0 →
      ∃ i idx, cascade_slot (w.m_time + 1) = some (Slot.level i idx) ∧ i ≤ 3 ∧ idx ≤ 62) ∧
    (Inv w → ∃ w2, execute ctx fuel w = some (w2, execute_near ctx (fired w)) ∧
      w2.m_time = w.m_time + 1) := by
  refine ⟨?_, execute_eq ctx fuel hf w hC, ?_, ?_⟩
  · rw [execute_eq ctx fuel hf w hC, execute_eq ctx 4 (Nat.le_refl 4) w hC]
  · intro hc
    obtain ⟨i, idx, hs, _⟩ := cascade_slot_some (w.m_time + 1) (by omega) hC hc
    obtain ⟨i2, idx2, e, h1, h2, _⟩ := cascade_slot_level _ _ hs
    cases e
    exact ⟨i, idx, hs, by omega, by omega⟩
  · intro hI
    obtain ⟨w2, he, _, hm, _⟩ := execute_spec ctx fuel hf w hI hC
    exact ⟨w2, he, hm⟩

/-- C16 (witness). The empty wheel with tick counter 255: the call cascades `t[0][0]`, and
seven evaluations of the loop condition give what four give. -/
theorem execute_terminates_without_wrap_witness :
    execute ctx0 7 (wheel_at 255) = execute ctx0 4 (wheel_at 255) ∧
      (∃ i idx, cascade_slot ((wheel_at 255).m_time + 1) = some (Slot.level i idx) ∧
        i ≤ 3 ∧ idx ≤ 62) ∧
      ∃ w2, execute ctx0 7 (wheel_at 255) = some (w2, execute_near ctx0 (fired (wheel_at 255))) ∧
        w2.m_time = (wheel_at 255).m_time + 1 :=
  ⟨(execute_terminates_without_wrap ctx0 7 (by decide) (wheel_at 255) (by decide)).1,
    (execute_terminates_without_wrap ctx0 7 (by decide) (wheel_at 255) (by decide)).2.2.1
      (by decide),
    (execute_terminates_without_wrap ctx0 7 (by decide) (wheel_at 255) (by decide)).2.2.2
      (empty_inv _ (by decide) (fun s => by cases s <;> rfl))⟩

/-! ## The cascade moves records down -/

theorem placeq_lower_0 (a0 b0 n j k : Nat) (hlt : a0 < b0) (_h0 : (a0 + 1) % 64 ≠ 0)
    (h1 : placeq a0 (a0 / 64) (a0 / 64 / 64) (a0 / 64 / 64 / 64)
        b0 (b0 / 64) (b0 / 64 / 64) (b0 / 64 / 64 / 64) n
      = some (Slot.level 0 ((a0 + 1) % 64 - 1)))
    (h2 : placeq (a0 + 1) ((a0 + 1) / 64) ((a0 + 1) / 64 / 64) ((a0 + 1) / 64 / 64 / 64)
        b0 (b0 / 64) (b0 / 64 / 64) (b0 / 64 / 64 / 64) n = some (Slot.level j k)) :
    j < 0 := by
  exfalso
  unfold placeq level_slot at h1
  have n0 : b0 ≠ a0 := by omega
  rw [if_neg n0] at h1
  by_cases c1 : b0 / 64 = a0 / 64
  · rw [if_pos c1] at h1
    by_cases d : b0 % 64 = 0
    · rw [if_pos d] at h1; cases h1
    · rw [if_neg d] at h1
      have hk : b0 % 64 - 1 = (a0 + 1) % 64 - 1 := by
        have := Option.some.inj h1
        injection this
      have e : b0 = a0 + 1 := by omega
      unfold placeq at h2
      rw [if_pos e] at h2
      cases h2
  · rw [if_neg c1] at h1
    split_ifs at h1 <;> simp at h1

theorem placeq_lower_1 (a0 b0 n j k : Nat) (hlt : a0 < b0) (h0 : (a0 + 1) % 64 = 0)
    (_h01 : (a0 + 1) / 64 % 64 ≠ 0)
    (h1 : placeq a0 (a0 / 64) (a0 / 64 / 64) (a0 / 64 / 64 / 64)
        b0 (b0 / 64) (b0 / 64 / 64) (b0 / 64 / 64 / 64) n
      = some (Slot.level 1 ((a0 + 1) / 64 % 64 - 1)))
    (h2 : placeq (a0 + 1) ((a0 + 1) / 64) ((a0 + 1) / 64 / 64) ((a0 + 1) / 64 / 64 / 64)
        b0 (b0 / 64) (b0 / 64 / 64) (b0 / 64 / 64 / 64) n = some (Slot.level j k)) :
    j < 1 := by
  unfold placeq level_slot at h1
  have n0 : b0 ≠ a0 := by omega
  rw [if_neg n0] at h1
  by_cases c1 : b0 / 64 = a0 / 64
  · rw [if_pos c1] at h1
    split_ifs at h1
    simp at h1
  rw [if_neg c1] at h1
  by_cases c2 : b0 / 64 / 64 = a0 / 64 / 64
  · rw [if_pos c2] at h1
    by_cases d : b0 / 64 % 64 = 0
    · rw [if_pos d] at h1; cases h1
    · rw [if_neg d] at h1
      have hk : b0 / 64 % 64 - 1 = (a0 + 1) / 64 % 64 - 1 := by
        have := Option.some.inj h1
        injection this
      have e : b0 / 64 = (a0 + 1) / 64 := by omega
      unfold placeq level_slot at h2
      rw [if_pos e] at h2
      split_ifs at h2 <;> simp only [Option.some.injEq, Slot.level.injEq, reduceCtorEq] at h2
      omega
  · rw [if_neg c2] at h1
    split_ifs at h1 <;> simp at h1

theorem placeq_lower_2 (a0 b0 n j k : Nat) (hlt : a0 < b0) (h0 : (a0 + 1) % 64 = 0)
    (h01 : (a0 + 1) / 64 % 64 = 0) (_h02 : (a0 + 1) / 64 / 64 % 64 ≠ 0)
    (h1 : placeq a0 (a0 / 64) (a0 / 64 / 64) (a0 / 64 / 64 / 64)
        b0 (b0 / 64) (b0 / 64 / 64) (b0 / 64 / 64 / 64) n
      = some (Slot.level 2 ((a0 + 1) / 64 / 64 % 64 - 1)))
    (h2 : placeq (a0 + 1) ((a0 + 1) / 64) ((a0 + 1) / 64 / 64) ((a0 + 1) / 64 / 64 / 64)
        b0 (b0 / 64) (b0 / 64 / 64) (b0 / 64 / 64 / 64) n = some (Slot.level j k)) :
    j < 2 := by
  unfold placeq level_slot at h1
  have n0 : b0 ≠ a0 := by omega
  rw [if_neg n0] at h1
  by_cases c1 : b0 / 64 = a0 / 64
  · rw [if_pos c1] at h1
    split_ifs at h1
    simp at h1
  rw [if_neg c1] at h1
  by_cases c2 : b0 / 64 / 64 = a0 / 64 / 64
  · rw [if_pos c2] at h1
    split_ifs at h1
    simp at h1
  rw [if_neg c2] at h1
  by_cases c3 : b0 / 64 / 64 / 64 = a0 / 64 / 64 / 64
  · rw [if_pos c3] at h1
    by_cases d : b0 / 64 / 64 % 64 = 0
    · rw [if_pos d] at h1; cases h1
    · rw [if_neg d] at h1
      have hk : b0 / 64 / 64 % 64 - 1 = (a0 + 1) / 64 / 64 % 64 - 1 := by
        have := Option.some.inj h1
        injection this
      have e : b0 / 64 / 64 = (a0 + 1) / 64 / 64 := by omega
      unfold placeq level_slot at h2
      rw [if_pos e] at h2
      split_ifs at h2 <;> simp only [Option.some.injEq, Slot.level.injEq, reduceCtorEq] at h2 <;>
        omega
  · rw [if_neg c3] at h1
    split_ifs at h1
    simp at h1

theorem placeq_lower_3 (a0 b0 n j k : Nat) (hlt : a0 < b0) (hb : b0 / 64 / 64 / 64 < 64)
    (h0 : (a0 + 1) % 64 = 0)
    (h01 : (a0 + 1) / 64 % 64 = 0) (h02 : (a0 + 1) / 64 / 64 % 64 = 0)
    (_h03 : (a0 + 1) / 64 / 64 / 64 % 64 ≠ 0)
    (h1 : placeq a0 (a0 / 64) (a0 / 64 / 64) (a0 / 64 / 64 / 64)
        b0 (b0 / 64) (b0 / 64 / 64) (b0 / 64 / 64 / 64) n
      = some (Slot.level 3 ((a0 + 1) / 64 / 64 / 64 % 64 - 1)))
    (h2 : placeq (a0 + 1) ((a0 + 1) / 64) ((a0 + 1) / 64 / 64) ((a0 + 1) / 64 / 64 / 64)
        b0 (b0 / 64) (b0 / 64 / 64) (b0 / 64 / 64 / 64) n = some (Slot.level j k)) :
    j < 3 := by
  unfold placeq level_slot at h1
  have n0 : b0 ≠ a0 := by omega
  rw [if_neg n0] at h1
  by_cases c1 : b0 / 64 = a0 / 64
  · rw [if_pos c1] at h1
    split_ifs at h1
    simp at h1
  rw [if_neg c1] at h1
  by_cases c2 : b0 / 64 / 64 = a0 / 64 / 64
  · rw [if_pos c2] at h1
    split_ifs at h1
    simp at h1
  rw [if_neg c2] at h1
  by_cases c3 : b0 / 64 / 64 / 64 = a0 / 64 / 64 / 64
  · rw [if_pos c3] at h1
    split_ifs at h1
    simp at h1
  rw [if_neg c3] at h1
  by_cases d : b0 / 64 / 64 / 64 % 64 = 0
  · rw [if_pos d] at h1; cases h1
  · rw [if_neg d] at h1
    have hk : b0 / 64 / 64 / 64 % 64 - 1 = (a0 + 1) / 64 / 64 / 64 % 64 - 1 := by
      have := Option.some.inj h1
      injection this
    have e : b0 / 64 / 64 / 64 = (a0 + 1) / 64 / 64 / 64 := by omega
    unfold placeq level_slot at h2
    rw [if_pos e] at h2
    split_ifs at h2 <;> simp only [Option.some.injEq, Slot.level.injEq, reduceCtorEq] at h2 <;>
      omega

/-- A record of the bucket that is cascaded is placed again in `near` or in a lower level. -/
theorem place_cascade_lower (C E : Nat) (hCE : C < E) (hE : E < 2 ^ 32) (i idx j k : Nat)
    (hc : (C + 1) % 256 = 0) (hs : cascade_slot (C + 1) = some (Slot.level i idx))
    (h1 : place C E = some (Slot.level i idx))
    (h2 : place (C + 1) E = some (Slot.level j k)) : j < i := by
  rw [cascade_slot_eq _ hc] at hs
  rw [place_eq_placeq (C + 1) E] at h2
  rw [place_eq_placeq C E] at h1
  have e0 : (C + 1) / 256 = C / 256 + 1 := by omega
  have hlt : C / 256 < E / 256 := by omega
  have hb : E / 256 / 64 / 64 / 64 < 64 := by omega
  rw [e0] at hs h2
  unfold cascadeq at hs
  by_cases h0 : (C / 256 + 1) % 64 = 0
  swap
  · rw [if_pos h0] at hs
    cases hs
    exact placeq_lower_0 _ _ _ _ _ hlt h0 h1 h2
  rw [if_neg (not_not.mpr h0)] at hs
  by_cases h01 : (C / 256 + 1) / 64 % 64 = 0
  swap
  · rw [if_pos h01] at hs
    cases hs
    exact placeq_lower_1 _ _ _ _ _ hlt h0 h01 h1 h2
  rw [if_neg (not_not.mpr h01)] at hs
  by_cases h02 : (C / 256 + 1) / 64 / 64 % 64 = 0
  swap
  · rw [if_pos h02] at hs
    cases hs
    exact placeq_lower_2 _ _ _ _ _ hlt h0 h01 h02 h1 h2
  rw [if_neg (not_not.mpr h02)] at hs
  by_cases h03 : (C / 256 + 1) / 64 / 64 / 64 % 64 = 0
  swap
  · rw [if_pos h03] at hs
    cases hs
    exact placeq_lower_3 _ _ _ _ _ hlt hb h0 h01 h02 h03 h1 h2
  rw [if_neg (not_not.mpr h03)] at hs
  cases hs

/-- The digits of the counter that select the cascaded bucket: those of the levels below
`i` are zero, the one of level `i` is `idx + 1`. -/
theorem cascade_slot_digits (m i idx : Nat) (h : cascade_slot m = some (Slot.level i idx)) :
    i ≤ 3 ∧ idx ≤ 62 ∧ m % 256 = 0 ∧
      (∀ j, j < i → (m >>> (8 + 6 * j)) &&& 0x3F = 0) ∧
      (m >>> (8 + 6 * i)) &&& 0x3F = idx + 1 := by
  have s8 : m >>> 8 = m / 256 := Nat.shiftRight_eq_div_pow m 8
  have s14 : m >>> 14 = m / 16384 := Nat.shiftRight_eq_div_pow m 14
  have s20 : m >>> 20 = m / 1048576 := Nat.shiftRight_eq_div_pow m 20
  have s26 : m >>> 26 = m / 67108864 := Nat.shiftRight_eq_div_pow m 26
  unfold cascade_slot at h
  split_ifs at h with c0 c1 c2 c3 c4 <;>
    simp only [Option.some.injEq, Slot.level.injEq, reduceCtorEq] at h <;>
    obtain ⟨hi, hk⟩ := h <;> subst hi <;> subst hk
  · refine ⟨by omega, by omega, by omega, ?_, ?_⟩
    · intro j hj; omega
    · rw [show 8 + 6 * 0 = 8 from rfl, s8, and_63]; omega
  · refine ⟨by omega, by omega, by omega, ?_, ?_⟩
    · intro j hj
      interval_cases j
      rw [show 8 + 6 * 0 = 8 from rfl, s8, and_63]; omega
    · rw [show 8 + 6 * 1 = 14 from rfl, s14, and_63]; omega
  · refine ⟨by omega, by omega, by omega, ?_, ?_⟩
    · intro j hj
      interval_cases j
      · rw [show 8 + 6 * 0 = 8 from rfl, s8, and_63]; omega
      · rw [show 8 + 6 * 1 = 14 from rfl, s14, and_63]; omega
    · rw [show 8 + 6 * 2 = 20 from rfl, s20, and_63]; omega
  · refine ⟨by omega, by omega, by omega, ?_, ?_⟩
    · intro j hj
      interval_cases j
      · rw [show 8 + 6 * 0 = 8 from rfl, s8, and_63]; omega
      · rw [show 8 + 6 * 1 = 14 from rfl, s14, and_63]; omega
      · rw [show 8 + 6 * 2 = 20 from rfl, s20, and_63]; omega
    · rw [show 8 + 6 * 3 = 26 from rfl, s26, and_63]; omega

/-- Buckets after an `execute` call that cascades `t[i][idx]`, in a state that satisfies the
invariant. -/
theorem execute_carry_buckets (ctx : Context) (fuel : Nat) (hf : 4 ≤ fuel) (w : Timer)
    (hI : Inv w) (hC : w.m_time + 1 < 2 ^ 32) (hc : (w.m_time + 1) % 256 = 0) (i idx : Nat)
    (hcs : cascade_slot (w.m_time + 1) = some (Slot.level i idx)) :
    (∀ n ∈ w.t i idx, w.m_time < n.expire ∧ n.expire < 2 ^ 32 ∧
      place w.m_time n.expire = some (Slot.level i idx) ∧
      ∃ x, place (w.m_time + 1) n.expire = some x ∧ x ≠ Slot.level i idx) ∧
    ∃ w2, execute ctx fuel w = some (w2, execute_near ctx (fired w)) ∧
      ∀ x, bucket w2 x = if x = Slot.level i idx then []
        else (if x = Slot.near (w.m_time % 256) then [] else bucket w x) ++
          (w.t i idx).filter (fun n => place (w.m_time + 1) n.expire = some x) := by
  have hm : TIME_NEAR_MASK = 255 := by decide
  have hsrc : ∀ n ∈ w.t i idx, w.m_time < n.expire ∧ n.expire < 2 ^ 32 ∧
      place w.m_time n.expire = some (Slot.level i idx) ∧
      ∃ x, place (w.m_time + 1) n.expire = some x ∧ x ≠ Slot.level i idx := by
    intro n hn
    have hb : n ∈ bucket w (Slot.level i idx) := hn
    have h := hI.2 _ n hb
    have hlt := not_due w hI (Slot.level i idx) (by simp) n hb
    obtain ⟨s, hs⟩ := place_some (w.m_time + 1) n.expire (by omega) h.2.1
    refine ⟨hlt, h.2.1, h.2.2, s, hs, ?_⟩
    intro hss
    rw [hss] at hs
    exact place_never_src _ _ hC h.2.1 _ hc hcs hs
  refine ⟨hsrc, ?_⟩
  rw [execute_eq ctx fuel hf w hC, if_neg (not_not.mpr hc), hcs]
  simp only [hm, and_255]
  obtain ⟨w2, e2, _, _, _, hb2⟩ := execute_cascade_spec i idx (w.t i idx)
    { w with near := upd w.near (w.m_time % 256) [], m_time := w.m_time + 1 } rfl (by
      intro n hn
      exact (hsrc n hn).2.2.2)
  refine ⟨w2, by rw [e2]; rfl, ?_⟩
  intro x
  rw [hb2 x, bucket_drain]

/-- C17 (counterexample). The empty wheel with tick counter `16383`, after
`timeout(5, 769, 42)`: the record, with expiry `17152`, lies in `t[1][0]`.  The next
`execute` call increments the counter to `16384`, whose level-0 digit is `0` and whose
level-1 digit is `1`; it cascades `t[1][0]`, and the record is placed into `t[0][2]`: a
bucket of a lower level, whose digit is zero, is changed by the call. -/
theorem cascade_changes_a_lower_level :
    ∃ w1 w2, timeout ctx0 (wheel_at 16383) 5 769 42 = some (w1, 42, []) ∧
      execute ctx0 4 w1 = some (w2, []) ∧
      w2.m_time = 16384 ∧
      (w2.m_time >>> 8) &&& 0x3F = 0 ∧ (w2.m_time >>> 14) &&& 0x3F = 1 ∧
      w1.t 1 0 = [⟨17152, ⟨5, 42⟩⟩] ∧ w2.t 1 0 = [] ∧
      w1.t 0 2 = [] ∧ w2.t 0 2 = [⟨17152, ⟨5, 42⟩⟩] :=
  ⟨_, _, rfl, rfl, rfl, by decide, by decide, rfl, rfl, rfl, rfl⟩

/-- C17 (amended). One `execute` call in a state whose tick counter is below `2^32 - 1`,
with `m'` the counter after the increment.  If the low 8 bits of `m'` are nonzero, the call
returns and no level bucket is changed.  Otherwise there is a least level `i ≤ 3` whose
digit `(m' >> (8 + 6*i)) & 0x3F` is nonzero, and the call walks the bucket `digit - 1` of
that level, placing each record again by `add_node`.  In a state that satisfies the
placement invariant, as every reachable state does, the call then returns, that bucket is
empty afterwards, every record of it has gone to `near` or to a level below `i`, every
other bucket of the levels `i` and above is unchanged, and the buckets of `near` and of the
levels below `i` keep their records, in order, followed by the records placed into them. -/
theorem cascade_moves_one_bucket_down (ctx : Context) (fuel : Nat) (hf : 4 ≤ fuel)
    (w : Timer) (hC : w.m_time + 1 < 2 ^ 32) :
    ((w.m_time + 1) % 256 ≠ 0 →
      ∃ w2, execute ctx fuel w = some (w2, execute_near ctx (fired w)) ∧
        ∀ j k, w2.t j k = w.t j k) ∧
    ((w.m_time + 1) % 256 = 0 →
      ∃ i idx, i ≤ 3 ∧ idx ≤ 62 ∧
        (∀ j, j < i → ((w.m_time + 1) >>> (8 + 6 * j)) &&& 0x3F = 0) ∧
        ((w.m_time + 1) >>> (8 + 6 * i)) &&& 0x3F = idx + 1 ∧
        execute ctx fuel w =
          (execute_cascade i idx (w.t i idx)
            { w with near := upd w.near (w.m_time &&& TIME_NEAR_MASK) [],
                     m_time := w.m_time + 1 }).map
            (fun w2 => (w2, execute_near ctx (fired w))) ∧
        (Inv w →
          ∃ w2, execute ctx fuel w = some (w2, execute_near ctx (fired w)) ∧
            w2.t i idx = [] ∧
            (∀ n ∈ w.t i idx, ∃ x, x.valid ∧ place (w.m_time + 1) n.expire = some x ∧
              ∀ j k, x = Slot.level j k → j < i) ∧
            (∀ j k, i ≤ j → ¬ (j = i ∧ k = idx) → w2.t j k = w.t j k) ∧
            (∀ j k, j < i → w2.t j k = w.t j k ++ (w.t i idx).filter
              (fun n => place (w.m_time + 1) n.expire = some (Slot.level j k))) ∧
            ∀ k, w2.near k = (if k = w.m_time % 256 then [] else w.near k) ++
              (w.t i idx).filter
                (fun n => place (w.m_time + 1) n.expire = some (Slot.near k)))) := by
  constructor
  · intro hc
    rw [execute_eq ctx fuel hf w hC, if_pos hc]
    exact ⟨_, rfl, fun _ _ => rfl⟩
  · intro hc
    obtain ⟨i, idx, hcs, _⟩ := cascade_slot_some (w.m_time + 1) (by omega) hC hc
    obtain ⟨h1, h2, _, h4, h5⟩ := cascade_slot_digits _ _ _ hcs
    refine ⟨i, idx, h1, h2, h4, h5, ?_, ?_⟩
    · rw [execute_eq ctx fuel hf w hC, if_neg (not_not.mpr hc), hcs]
    · intro hI
      obtain ⟨hsrc, w2, he, hb⟩ := execute_carry_buckets ctx fuel hf w hI hC hc i idx hcs
      have hlow : ∀ n ∈ w.t i idx, ∀ j k,
          place (w.m_time + 1) n.expire = some (Slot.level j k) → j < i := by
        intro n hn j k hp
        obtain ⟨a, b, c, _⟩ := hsrc n hn
        exact place_cascade_lower w.m_time n.expire a b i idx j k hc hcs c hp
      refine ⟨w2, he, ?_, ?_, ?_, ?_, ?_⟩
      · have := hb (Slot.level i idx)
        rw [if_pos rfl] at this
        exact this
      · intro n hn
        obtain ⟨_, _, _, x, hx, _⟩ := hsrc n hn
        refine ⟨x, place_valid _ _ _ hx, hx, ?_⟩
        intro j k hjk
        rw [hjk] at hx
        exact hlow n hn j k hx
      · intro j k hij hne
        have := hb (Slot.level j k)
        rw [if_neg (by simpa using hne), if_neg (by simp)] at this
        have hnil : (w.t i idx).filter
            (fun n => place (w.m_time + 1) n.expire = some (Slot.level j k)) = [] := by
          rw [List.filter_eq_nil_iff]
          intro n hn hp
          simp only [decide_eq_true_eq] at hp
          have := hlow n hn j k hp
          omega
        rw [hnil, List.append_nil] at this
        exact this
      · intro j k hji
        have := hb (Slot.level j k)
        rw [if_neg (by simp; omega), if_neg (by simp)] at this
        exact this
      · intro k
        have := hb (Slot.near k)
        rw [if_neg (by simp)] at this
        simp only [Slot.near.injEq] at this
        exact this

/-- C17 (witness). The empty wheel with tick counter `16383` after `timeout(5, 769, 42)`:
the call cascades `t[1][0]`, which is empty afterwards, and leaves the levels 1, 2 and 3
otherwise unchanged. -/
theorem cascade_moves_one_bucket_down_witness :
    ∃ w1, timeout ctx0 (wheel_at 16383) 5 769 42 = some (w1, 42, []) ∧ Inv w1 ∧
      w1.m_time + 1 < 2 ^ 32 ∧ (w1.m_time + 1) % 256 = 0 ∧
      ∃ i idx, i ≤ 3 ∧ idx ≤ 62 ∧
        ((w1.m_time + 1) >>> (8 + 6 * i)) &&& 0x3F = idx + 1 ∧
        ∃ w2, execute ctx0 4 w1 = some (w2, execute_near ctx0 (fired w1)) ∧
          w2.t i idx = [] ∧
          ∀ j k, i ≤ j → ¬ (j = i ∧ k = idx) → w2.t j k = w1.t j k := by
  have hI0 : Inv (wheel_at 16383) := empty_inv _ (by decide) (fun s => by cases s <;> rfl)
  obtain ⟨w1, s, e1, hI1, hm1, _⟩ :=
    timeout_spec ctx0 (wheel_at 16383) hI0 5 769 42 (by decide) (by decide)
  have h0 : (wheel_at 16383).m_time = 16383 := rfl
  have hC : w1.m_time + 1 < 2 ^ 32 := by omega
  have hc : (w1.m_time + 1) % 256 = 0 := by omega
  obtain ⟨i, idx, a1, a2, _, a4, _, a6⟩ :=
    (cascade_moves_one_bucket_down ctx0 4 (by decide) w1 hC).2 hc
  obtain ⟨w2, he, b1, _, b3, _⟩ := a6 hI1
  exact ⟨w1, e1, hI1, hC, hc, i, idx, a1, a2, a4, w2, he, b1, b3⟩

/-! ## Clock readings -/

/-- The reading of `_gettime` without the 32-bit reductions, which never overflow. -/
theorem gettime_eq (tv_sec tv_nsec : Nat) (h : tv_nsec < 10 ^ 9) :
    _gettime tv_sec tv_nsec = tv_sec % 2 ^ 24 * 100 + tv_nsec / 10000000 := by
  unfold _gettime add32
  have h1 : tv_sec &&& 0xffffff = tv_sec % 2 ^ 24 := Nat.and_pow_two_sub_one_eq_mod tv_sec 24
  have h2 : tv_sec % 2 ^ 24 < 2 ^ 24 := Nat.mod_lt _ (by decide)
  have h3 : tv_nsec / 10000000 < 100 := by omega
  have e1 : tv_sec % 2 ^ 24 % U32 = tv_sec % 2 ^ 24 :=
    Nat.mod_eq_of_lt (by unfold U32; omega)
  have e2 : tv_sec % 2 ^ 24 * 100 % U32 = tv_sec % 2 ^ 24 * 100 :=
    Nat.mod_eq_of_lt (by unfold U32; omega)
  have e3 : tv_nsec / 10000000 % U32 = tv_nsec / 10000000 :=
    Nat.mod_eq_of_lt (by unfold U32; omega)
  rw [h1, e1, e2, e3, Nat.mod_eq_of_lt (by unfold U32; omega)]

/-- C19 (counterexample). The clock values `(2^24 - 1 s, 0 ns)` and `(2^24 s, 0 ns)`: the
clock has advanced by one second, and the reading drops from `1677721500` to `0`, because
`tv_sec & 0xffffff` wraps. -/
theorem gettime_reading_decreases :
    2 ^ 24 - 1 < 2 ^ 24 ∧ _gettime (2 ^ 24 - 1) 0 = 1677721500 ∧ _gettime (2 ^ 24) 0 = 0 ∧
      ¬ _gettime (2 ^ 24 - 1) 0 ≤ _gettime (2 ^ 24) 0 := by
  have a : _gettime (2 ^ 24 - 1) 0 = 1677721500 := by
    rw [gettime_eq _ _ (by decide)]
    rfl
  have b : _gettime (2 ^ 24) 0 = 0 := by
    rw [gettime_eq _ _ (by decide)]
    rfl
  refine ⟨by decide, a, b, ?_⟩
  rw [a, b]
  decide

/-- C19 (amended). For a clock value `(sec, nsec)` with `nsec < 10^9`, the reading of
`_gettime` is `(sec & 0xffffff) * 100 + nsec / 10^7` without any 32-bit overflow, and it is
at most `1677721599`, so it fits in 32 bits (in 31).  It is non-decreasing over clock values
whose seconds lie in the same period of `2^24` seconds: for `(sec1, nsec1) ≤ (sec2, nsec2)`
with `sec1 / 2^24 = sec2 / 2^24` the first reading is at most the second. -/
theorem gettime_fits_and_is_monotone_within_a_period (sec1 nsec1 sec2 nsec2 : Nat)
    (h1 : nsec1 < 10 ^ 9) (h2 : nsec2 < 10 ^ 9)
    (hle : sec1 < sec2 ∨ (sec1 = sec2 ∧ nsec1 ≤ nsec2))
    (hp : sec1 / 2 ^ 24 = sec2 / 2 ^ 24) :
    _gettime sec1 nsec1 = (sec1 &&& 0xffffff) * 100 + nsec1 / 10000000 ∧
      _gettime sec1 nsec1 ≤ 1677721599 ∧ _gettime sec1 nsec1 < 2 ^ 32 ∧
      _gettime sec1 nsec1 ≤ _gettime sec2 nsec2 := by
  have hm : sec1 &&& 0xffffff = sec1 % 2 ^ 24 := Nat.and_pow_two_sub_one_eq_mod sec1 24
  have e1 := gettime_eq sec1 nsec1 h1
  have e2 := gettime_eq sec2 nsec2 h2
  have b1 : sec1 % 2 ^ 24 < 2 ^ 24 := Nat.mod_lt _ (by decide)
  have b2 : sec2 % 2 ^ 24 < 2 ^ 24 := Nat.mod_lt _ (by decide)
  have d1 := Nat.div_add_mod sec1 (2 ^ 24)
  have d2 := Nat.div_add_mod sec2 (2 ^ 24)
  rw [hp] at d1
  refine ⟨by rw [hm]; exact e1, by omega, by omega, ?_⟩
  rw [e1, e2]
  rcases hle with h | ⟨h, h3⟩
  · have : sec1 % 2 ^ 24 < sec2 % 2 ^ 24 := by omega
    omega
  · subst h
    omega

/-- C19 (witness). The clock values `(3 s, 0 ns)` and `(3 s, 5 * 10^8 ns)`: readings 300
and 350. -/
theorem gettime_fits_and_is_monotone_within_a_period_witness :
    _gettime 3 0 = (3 &&& 0xffffff) * 100 + 0 / 10000000 ∧
      _gettime 3 0 ≤ 1677721599 ∧ _gettime 3 0 < 2 ^ 32 ∧
      _gettime 3 0 ≤ _gettime 3 500000000 :=
  gettime_fits_and_is_monotone_within_a_period 3 0 3 500000000 (by decide) (by decide)
    (Or.inr ⟨rfl, by decide⟩) (by decide)

/-- The pushes of the drain loop do not depend on what `push` returns. -/
theorem execute_near_push (P H : Nat) (push1 push2 : Nat → skynet_message → Int)
    (l : List timer_node) :
    execute_near ⟨P, H, push1⟩ l = execute_near ⟨P, H, push2⟩ l := by
  rw [execute_near_eq_map, execute_near_eq_map]

theorem execute_push (P H : Nat) (push1 push2 : Nat → skynet_message → Int) (fuel : Nat)
    (w : Timer) : execute ⟨P, H, push1⟩ fuel w = execute ⟨P, H, push2⟩ fuel w := by
  unfold execute
  simp only [execute_near_push P H push1 push2]

theorem updatetime_loop_push (P H : Nat) (push1 push2 : Nat → skynet_message → Int)
    (fuel n : Nat) (w : Timer) :
    updatetime_loop ⟨P, H, push1⟩ fuel n w = updatetime_loop ⟨P, H, push2⟩ fuel n w := by
  induction n generalizing w with
  | zero => rfl
  | succ n ih =>
    rw [updatetime_loop, updatetime_loop, execute_push P H push1 push2]
    cases execute ⟨P, H, push2⟩ fuel w with
    | none => rfl
    | some r =>
      obtain ⟨w1, o1⟩ := r
      simp only [ih w1]

/-- C20. The result of a fired dispatch never influences the wheel.  For every wheel state
and any two dispatchers that differ only in what `push` returns, `execute` has the same
result, the final state together with the sequence of pushes, and so has `updatetime` for
every reading; the result of either call carries no error value.  When `execute` returns,
the records of the drained bucket have each been pushed once, in order, whatever `push`
returned, and, in a state that satisfies the placement invariant and does not wrap, none of
them is pending afterwards: a record whose push failed is removed and not retried. -/
theorem push_results_never_influence_the_wheel (P H : Nat)
    (push1 push2 : Nat → skynet_message → Int) (fuel : Nat) (w : Timer) :
    execute ⟨P, H, push1⟩ fuel w = execute ⟨P, H, push2⟩ fuel w ∧
    (∀ ct, updatetime ⟨P, H, push1⟩ fuel w ct = updatetime ⟨P, H, push2⟩ fuel w ct) ∧
    (∀ w2 out, w.m_time < 2 ^ 32 → execute ⟨P, H, push1⟩ fuel w = some (w2, out) →
      out = (w.near (w.m_time &&& TIME_NEAR_MASK)).map
        (fun n => (n.event.handle, timeout_message ⟨P, H, push1⟩ n.event.session))) ∧
    (∀ w2 out, Inv w → w.m_time + 1 < 2 ^ 32 →
      execute ⟨P, H, push1⟩ fuel w = some (w2, out) →
      pending w2 w.m_time = [] ∧
        ∀ n ∈ all_nodes w2, n ∉ w.near (w.m_time &&& TIME_NEAR_MASK)) := by
  refine ⟨execute_push P H push1 push2 fuel w, ?_, ?_, ?_⟩
  · intro ct
    unfold updatetime
    split_ifs
    · exact updatetime_loop_push P H push1 push2 fuel _ _
    · rfl
  · intro w2 out hm he
    obtain ⟨_, _, _, ho⟩ := execute_fields _ fuel w w2 out hm he
    rw [ho, execute_near_eq_map]
    rfl
  · intro w2 out hI hC he
    obtain ⟨w3, he3, hI3, hm3, _, _, hq⟩ :=
      execute_spec ⟨P, H, push1⟩ (fuel + 4) (by omega) w hI hC
    have h4 := execute_mono _ w fuel 4 _ he
    rw [he3] at h4
    have hw : w3 = w2 := congrArg Prod.fst (Option.some.inj h4)
    subst hw
    refine ⟨?_, ?_⟩
    · rw [pending_eq_queue w3 hI3, hq, if_pos rfl]
    · intro n hn hf
      have h1 : n.expire = w.m_time := near_due w hI n (by rw [← fired_eq]; exact hf)
      obtain ⟨s, _, hs⟩ := (mem_all_nodes w3 n).mp hn
      have := (hI3.2 s n hs).1
      omega

/-- C20 (witness). The fresh wheel after `timeout(5, 1, 42)` and one `execute` call: the
next `execute` call with a dispatcher whose `push` always fails gives what it gives with
the one whose `push` always succeeds; the record is pushed once and is gone afterwards. -/
theorem push_results_never_influence_the_wheel_witness :
    ∃ w1 wa w2, timeout ctx0 (construct 0 0 0) 5 1 42 = some (w1, 42, []) ∧
      execute ctx0 4 w1 = some (wa, []) ∧
      execute ctx_fail 4 wa = execute ctx0 4 wa ∧
      execute ctx_fail 4 wa = some (w2, [(5, timeout_message ctx_fail 42)]) ∧
      pending w2 wa.m_time = [] := by
  have e1 : timeout ctx0 (construct 0 0 0) 5 1 42
      = some (add_tail (construct 0 0 0) (Slot.near 1) ⟨1, ⟨5, 42⟩⟩, 42, []) := rfl
  have hI1 : Inv (add_tail (construct 0 0 0) (Slot.near 1) ⟨1, ⟨5, 42⟩⟩) :=
    step_inv ctx0 _ _ (construct_inv 0 0 0)
      (Step.timeout 5 1 42 42 [] (Or.inr (by decide)) e1)
  have hIa : ∀ wa, execute ctx0 4 (add_tail (construct 0 0 0) (Slot.near 1) ⟨1, ⟨5, 42⟩⟩)
      = some (wa, []) → Inv wa := fun wa h => step_inv ctx0 _ _ hI1 (Step.execute 4 [] h)
  refine ⟨_, _, _, e1, rfl, ?_, rfl, ?_⟩
  · exact (push_results_never_influence_the_wheel 1 24 _ _ 4 _).1
  · exact ((push_results_never_influence_the_wheel 1 24 (fun _ _ => -1) (fun _ _ => 0) 4
      _).2.2.2 _ _ (hIa _ rfl) (by decide) rfl).1

end fibernet
